import Mathlib

/-!
# Waypoint: documentation operation, mapper set and operation-record store

A shallow embedding of three pieces of the repository:

* `runner.executeDocsOp` (internal/runner/operation_docs.go),
* `mapper.Set.Convert`, `ConvertSlice` and `ConvertType`
  (sdk/internal-shared/mapper/set.go),
* the operation-record store exercised by `TestDeploymentPrune`
  (internal/server/singleprocess/state/deployment_test.go).

Go calls that return `(value, error)` and may panic are functions into
`GoResult`.  Logging has no effect on any returned value and is left out.
All definitions come first, the theorems follow.
-/

/-- The three ways a Go call of type `(T, error)` can end: a value with a nil
error, a nil value with an error, or a panic. -/
inductive GoResult (ε α : Type) where
  | ok (value : α)
  | error (err : ε)
  | panic (msg : String)
deriving DecidableEq, Repr

deriving instance DecidableEq for Except

/-! ## Definitions: internal/runner/operation_docs.go -/

namespace runner

/-- The sdk type `docs.FieldDocs`, as far as `executeDocsOp` reads it. -/
structure FieldDocs where
  Field : String
  Type_ : String
  Optional : Bool
  Synopsis : String
  Summary : String
  Default : String
  EnvVar : String
deriving DecidableEq, Repr

/-- The sdk type `docs.Details`, as far as `executeDocsOp` reads it. -/
structure Details where
  Description : String
  Example : String
deriving DecidableEq, Repr

/-- The sdk type `docs.Documentation`: what its methods `Details()` and
`Fields()` return. -/
structure Documentation where
  Details : Details
  Fields : List FieldDocs
deriving DecidableEq, Repr

/-- The message `pb.Component`, the value `app.ComponentProto` returns. -/
structure Component where
  Type_ : Nat
  Name : String
deriving DecidableEq, Repr

/-- The message `pb.Job_DocsResult_FieldDocumentation`. -/
structure Job_DocsResult_FieldDocumentation where
  Name : String
  Type_ : String
  Optional : Bool
  Synopsis : String
  Summary : String
  Default : String
  EnvVar : String
deriving DecidableEq, Repr

/-- A Go `map[string]*V`: an association list holding every key at most once
when built with `mapSet`; the position of a key in the list carries no
meaning. -/
abbrev GoMap (V : Type) := List (String × V)

/-- The assignment `m[k] = v`: an entry with key `k` is replaced. -/
def mapSet {V : Type} (m : GoMap V) (k : String) (v : V) : GoMap V :=
  (k, v) :: m.filter (fun p => p.1 ≠ k)

/-- The lookup `m[k]`, `none` for an absent key. -/
def mapGet {V : Type} (m : GoMap V) (k : String) : Option V :=
  (m.find? (fun p => p.1 = k)).map Prod.snd

/-- The keys of a map. -/
def mapKeys {V : Type} (m : GoMap V) : List String :=
  m.map Prod.fst

/-- The message `pb.Job_DocsResult_Documentation`. -/
structure Job_DocsResult_Documentation where
  Description : String
  Example : String
  Fields : GoMap Job_DocsResult_FieldDocumentation
deriving DecidableEq, Repr

/-- The message `pb.Job_DocsResult_Result`; both fields are pointers. -/
structure Job_DocsResult_Result where
  Component : Option Component
  Docs : Option Job_DocsResult_Documentation
deriving DecidableEq, Repr

/-- The message `pb.Job_DocsResult`. -/
structure Job_DocsResult where
  Results : List Job_DocsResult_Result
deriving DecidableEq, Repr

/-- The message `pb.Job_Result`; `executeDocsOp` sets `Docs` only. -/
structure Job_Result where
  Docs : Option Job_DocsResult
deriving DecidableEq, Repr

/-- The oneof `job.Operation`: the docs operation or any other one. -/
inductive Job_Operation where
  | Docs
  | Other (kind : String)
deriving DecidableEq, Repr

/-- The message `pb.Ref_Application`. -/
structure Ref_Application where
  Application : String
  Project : String
deriving DecidableEq, Repr

/-- The message `pb.Job`, as far as `executeDocsOp` reads it; both fields are
pointers and may be nil. -/
structure Job where
  Operation : Option Job_Operation
  Application : Option Ref_Application
deriving DecidableEq, Repr

/-- The type `core.App` over components of type `C`: what `Components()` and
`ComponentProto(c)` return. -/
structure App (C : Type) where
  Components : List C
  ComponentProto : C → Option Component

/-- The type `core.Project`: what `project.App(name)` returns. -/
structure Project (ε C : Type) where
  App : String → Except ε (App C)

/-- The body of the inner loop: one field of the component's documentation
copied into a `pb.Job_DocsResult_FieldDocumentation`. -/
def fieldDoc (f : FieldDocs) : Job_DocsResult_FieldDocumentation where
  Name := f.Field
  Type_ := f.Type_
  Optional := f.Optional
  Synopsis := f.Synopsis
  Summary := f.Summary
  Default := f.Default
  EnvVar := f.EnvVar

/-- The inner loop `for _, f := range docs.Fields()`, started on the map
`m`: `pbdocs.Fields[f.Field] = &pbf` for every field in turn. -/
def fieldLoop : List FieldDocs → GoMap Job_DocsResult_FieldDocumentation →
    GoMap Job_DocsResult_FieldDocumentation
  | [], m => m
  | f :: fs, m => fieldLoop fs (mapSet m f.Field (fieldDoc f))

/-- The value of `pbdocs` once the inner loop has run. -/
def buildDocs (docs : Documentation) : Job_DocsResult_Documentation where
  Description := docs.Details.Description
  Example := docs.Details.Example
  Fields := fieldLoop docs.Fields []

/-- The loop `for _, c := range app.Components()` of `executeDocsOp`, started
with the slice `results`; `Documentation` is `component.Documentation`.  An
error of `component.Documentation` returns from the whole function. -/
def componentLoop {ε C : Type} (Documentation : C → Except ε (Option Documentation))
    (app : App C) : List C → List Job_DocsResult_Result →
    Except ε (List Job_DocsResult_Result)
  | [], results => .ok results
  | c :: cs, results =>
    match app.ComponentProto c with
    | none => componentLoop Documentation app cs results
    | some info =>
      match Documentation c with
      | .error err => .error err
      | .ok none => componentLoop Documentation app cs results
      | .ok (some docs) =>
        componentLoop Documentation app cs
          (results ++ [{ Component := some info, Docs := some (buildDocs docs) }])

/-- The method `Runner.executeDocsOp`.  The receiver, the context and the
logger do not reach the result; `Documentation` is `component.Documentation`.
A nil `job.Application` is dereferenced by `job.Application.Application`. -/
def executeDocsOp {ε C : Type} (Documentation : C → Except ε (Option Documentation))
    (job : Job) (project : Project ε C) : GoResult ε Job_Result :=
  match job.Operation with
  | some .Docs =>
    match job.Application with
    | none => .panic "nil pointer dereference"
    | some ref =>
      match project.App ref.Application with
      | .error err => .error err
      | .ok app =>
        match componentLoop Documentation app app.Components [] with
        | .error err => .error err
        | .ok results => .ok { Docs := some { Results := results } }
  | _ => .panic "operation not expected type"

/-- A component that contributes an entry: `app.ComponentProto` is non-nil
and `component.Documentation` returns non-nil documentation. -/
def documented {ε C : Type} (Documentation : C → Except ε (Option Documentation))
    (app : App C) (c : C) : Bool :=
  (app.ComponentProto c).isSome &&
    match Documentation c with
    | .ok (some _) => true
    | _ => false

/-- The entry the outer loop appends for the component `c`. -/
def EntryFor {ε C : Type} (Documentation : C → Except ε (Option Documentation))
    (app : App C) (c : C) (r : Job_DocsResult_Result) : Prop :=
  ∃ info docs, app.ComponentProto c = some info ∧ Documentation c = .ok (some docs) ∧
    r = { Component := some info, Docs := some (buildDocs docs) }

/-- A sample of `component.Documentation` over components numbered by `Nat`:
component 0 documents the field "image" twice, component 2 has no
documentation, component 4 fails. -/
def sampleDocumentation : Nat → Except String (Option Documentation)
  | 0 => .ok (some { Details := { Description := "builds an image", Example := "use docker" },
                     Fields := [ { Field := "image", Type_ := "string", Optional := false,
                                   Synopsis := "first", Summary := "", Default := "", EnvVar := "" },
                                 { Field := "tag", Type_ := "string", Optional := true,
                                   Synopsis := "tag", Summary := "", Default := "latest", EnvVar := "TAG" },
                                 { Field := "image", Type_ := "string", Optional := true,
                                   Synopsis := "second", Summary := "s", Default := "d", EnvVar := "IMAGE" } ] })
  | 3 => .ok (some { Details := { Description := "deploys", Example := "" }, Fields := [] })
  | 4 => .error "plugin crashed"
  | _ => .ok none

/-- A sample application: components 0 to 3, component 1 without a proto. -/
def sampleApp : App Nat where
  Components := [0, 1, 2, 3]
  ComponentProto
    | 1 => none
    | n => some { Type_ := n, Name := "component" }

/-- A sample application whose component 4 fails to document itself. -/
def failingApp : App Nat where
  Components := [0, 4, 3]
  ComponentProto := fun n => some { Type_ := n, Name := "component" }

/-- A sample project with the applications "web" and "broken". -/
def sampleProject : Project String Nat where
  App
    | "web" => .ok sampleApp
    | "broken" => .ok failingApp
    | _ => .error "application not found"

/-- A sample docs job for the application `name`. -/
def sampleJob (name : String) : Job where
  Operation := some .Docs
  Application := some { Application := name, Project := "p" }

/-- What `executeDocsOp` returns for the sample job on "web": the field
"image" of component 0 appears once, with the values of its second
declaration. -/
def sampleResult : Job_Result where
  Docs := some { Results :=
    [ { Component := some { Type_ := 0, Name := "component" },
        Docs := some { Description := "builds an image", Example := "use docker",
                       Fields := [ ("image", { Name := "image", Type_ := "string",
                                               Optional := true, Synopsis := "second",
                                               Summary := "s", Default := "d",
                                               EnvVar := "IMAGE" }),
                                   ("tag", { Name := "tag", Type_ := "string",
                                             Optional := true, Synopsis := "tag",
                                             Summary := "", Default := "latest",
                                             EnvVar := "TAG" }) ] } },
      { Component := some { Type_ := 3, Name := "component" },
        Docs := some { Description := "deploys", Example := "", Fields := [] } } ] }

end runner

/-! ## Definitions: sdk/internal-shared/mapper/set.go -/

namespace mapper

/-- A Go type as `reflect` tells it apart in set.go: a slice type, a pointer
type, an interface type, or a type of any other kind, given by its name. -/
inductive GoType where
  | named (name : String)
  | iface (name : String)
  | slice (elem : GoType)
  | ptr (elem : GoType)
deriving DecidableEq, Repr

/-- The kinds `reflect.Value.Kind` is compared with in set.go. -/
inductive Kind where
  | Invalid
  | Slice
  | Ptr
  | Other
deriving DecidableEq, Repr

/-- A Go value held in an `interface{}`: the nil interface, a value of a
named type, a slice (`none` is the nil slice), or a pointer to a variable of
type `elem` (`none` is the nil pointer, `some v` a variable holding `v`; a
variable of an interface type holds the value stored in it, or `nil`).  A
write through a pointer is the pointer value with the new content. -/
inductive Value where
  | nil
  | base (typ : String) (data : Nat)
  | slice (elem : GoType) (elems : Option (List Value))
  | ptr (elem : GoType) (target : Option Value)
deriving Repr

/-- The call `reflect.ValueOf(v).Kind()`. -/
def Value.Kind : Value → Kind
  | .nil => .Invalid
  | .base _ _ => .Other
  | .slice _ _ => .Slice
  | .ptr _ _ => .Ptr

/-- The call `reflect.TypeOf(v)`, what `%T` prints; `none` for the nil
interface. -/
def Value.Type : Value → Option GoType
  | .nil => none
  | .base typ _ => some (.named typ)
  | .slice elem _ => some (.slice elem)
  | .ptr elem _ => some (.ptr elem)

/-- The call `reflect.Value.Len()` on a slice. -/
def Value.Len : Value → Nat
  | .slice _ (some elems) => elems.length
  | _ => 0

/-- The zero value of a type: what `reflect.New` and `reflect.MakeSlice`
fill a fresh variable with. -/
def Zero : GoType → Value
  | .named name => .base name 0
  | .iface _ => .nil
  | .slice elem => .slice elem none
  | .ptr elem => .ptr elem none

/-- The call `reflect.Type.Elem()`, which panics (`none`) on a type without
an element type. -/
def GoType.Elem : GoType → Option GoType
  | .named _ => none
  | .iface _ => none
  | .slice elem => some elem
  | .ptr elem => some elem

/-- The errors `Convert` and `ConvertSlice` make with `fmt.Errorf`, with the
types their `%T` verbs print, and the errors of a mapper chain. -/
inductive Err where
  | outputMustBePointer (got : Option GoType)
  | noMappers (inType outType : Option GoType)
  | inputMustBeSlice (got : Option GoType)
  | outputPointerValueMustBeSlice (got : Option GoType)
  | call (msg : String)
deriving DecidableEq, Repr

/-- The type `mapper.Chain`, as far as `Convert` uses it: what `Call()`
returns. -/
structure Chain where
  Call : GoResult Err Value

/-- The type `mapper.Set`.  `Convert` uses the list of functions only through
`ChainTarget(CheckReflectType(t), s, in)`, which is not in set.go: a set is
given by the chain that call resolves for a target type and an input, `none`
being the nil chain. -/
structure Set where
  ChainTarget : GoType → Value → Option Chain

/-- What `reflect` knows of the declarations of the program's types:
`Assignable v t` tells whether a value of type `v` is assignable to a
variable of another type `t`, as it is to an interface type that `v`
implements. -/
structure Types where
  Assignable : GoType → GoType → Bool

/-- The check of `reflect.Value.Set`: a value of type `v` can be stored in a
variable of type `t` when the types are identical or `v` is assignable to
`t`. -/
def Types.AssignableTo (types : Types) (v t : GoType) : Bool :=
  v = t || types.Assignable v t

/-- How a call that writes through its `out` argument ends: its result, and
the `out` argument with what it points to afterwards. -/
structure Effect where
  result : GoResult Err Unit
  out : Value

/-- The method `Set.Convert`.  `outVal.Elem().Type()` panics on a nil pointer;
`outVal.Elem().Set` stores a value that is assignable to the type of the
variable, so a variable of an interface type holds the value itself, and
panics on any other value and on the nil interface. -/
def Set.Convert (s : Set) (types : Types) (in_ out : Value) : Effect :=
  match out with
  | .ptr elem target =>
    match target with
    | none => ⟨.panic "reflect: call of reflect.Value.Type on zero Value", out⟩
    | some _ =>
      match s.ChainTarget elem in_ with
      | none => ⟨.error (.noMappers in_.Type out.Type), out⟩
      | some chain =>
        match chain.Call with
        | .panic msg => ⟨.panic msg, out⟩
        | .error err => ⟨.error err, out⟩
        | .ok raw =>
          match raw.Type with
          | none => ⟨.panic "reflect: call of reflect.Value.Set on zero Value", out⟩
          | some t =>
            if types.AssignableTo t elem then ⟨.ok (), .ptr elem (some raw)⟩
            else ⟨.panic "reflect.Set: value is not assignable", out⟩
  | _ => ⟨.error (.outputMustBePointer out.Type), out⟩

/-- The loop `for i := 0; i < inVal.Len(); i++` of `ConvertSlice` from index
`i` on: `rest` holds the input elements from `i` on, `outElems` the elements
of the output slice.  `to_` points to element `i` of the output slice, and a
successful `Convert` has written that element. -/
def convertLoop (s : Set) (types : Types) (elem : GoType) : List Value → Nat → List Value →
    GoResult Err Unit × List Value
  | [], _, outElems => (.ok (), outElems)
  | from_ :: rest, i, outElems =>
    let to_ := Value.ptr elem outElems[i]?
    let eff := s.Convert types from_ to_
    match eff.result with
    | .ok _ =>
      match eff.out with
      | .ptr _ (some v) => convertLoop s types elem rest (i + 1) (outElems.set i v)
      | _ => convertLoop s types elem rest (i + 1) outElems
    | .error err => (.error err, outElems)
    | .panic msg => (.panic msg, outElems)

/-- The method `Set.ConvertSlice`.  The elements of the input are those of
`in` (none for a nil slice); `outVal.Elem()` of a nil pointer has kind
Invalid; `made` holds the elements of
`reflect.MakeSlice(outVal.Type(), inVal.Len(), inVal.Len())`, a non-nil slice
of zero values that replaces what the variable held. -/
def Set.ConvertSlice (s : Set) (types : Types) (in_ out : Value) : Effect :=
  match in_ with
  | .slice _ elems =>
    match out with
    | .ptr (.slice elem) (some _) =>
      let made := List.replicate in_.Len (Zero elem)
      let r := convertLoop s types elem (elems.getD []) 0 made
      ⟨r.1, .ptr (.slice elem) (some (.slice elem (some r.2)))⟩
    | .ptr _ _ => ⟨.error (.outputPointerValueMustBeSlice out.Type), out⟩
    | _ => ⟨.error (.outputMustBePointer out.Type), out⟩
  | _ => ⟨.error (.inputMustBeSlice in_.Type), out⟩

/-- The method `Set.ConvertType`.  `reflect.TypeOf(outType).Elem()` panics
for a nil `outType` and for a type without an element type. -/
def Set.ConvertType (s : Set) (types : Types) (in_ outType : Value) : GoResult Err Value :=
  match outType.Type with
  | none => .panic "invalid memory address or nil pointer dereference"
  | some t =>
    match t.Elem with
    | none => .panic "reflect: Elem of invalid type"
    | some typ =>
      let outVal := Value.ptr typ (some (Zero typ))
      let eff :=
        match typ with
        | .slice _ => s.ConvertSlice types in_ outVal
        | _ => s.Convert types in_ outVal
      match eff.result with
      | .error err => .error err
      | .panic msg => .panic msg
      | .ok _ =>
        match eff.out with
        | .ptr _ (some v) => .ok v
        | _ => .panic "unreachable"

/-- A sample set: a chain to the interface type `Stringer` exists for every
value of a named type; it fails on odd data and otherwise returns a `string`
holding half of it. -/
def sampleSet : Set where
  ChainTarget
    | .iface "Stringer", .base _ n =>
      some ⟨if n % 2 = 0 then .ok (.base "string" (n / 2)) else .error (.call "odd")⟩
    | _, _ => none

/-- Sample declarations: the type `string` implements the interface
`Stringer`. -/
def sampleTypes : Types where
  Assignable v t := v = .named "string" && t = .iface "Stringer"

end mapper

/-! ## Definitions: the operation-record store of
internal/server/singleprocess/state

Only `deployment_test.go` of this package is among the sources: the store
itself is modelled from the specification, and from what `TestDeploymentPrune`
requires of it. -/

namespace state

/-- The message `pb.Deployment` as the store reads it: its id, the owning
application (the group key) and a kind-specific field the store does not
interpret. -/
structure Deployment where
  Id : String
  Application : String
  Status : Nat
deriving DecidableEq, Repr

/-- Modelled from the spec: an entry of the group index (the index set of the
store is not among the sources): the group key and the id of the record.  The
position in the index is the insertion sequence. -/
structure IndexEntry where
  Group : String
  Id : String
deriving DecidableEq, Repr

/-- Modelled from the spec: the errors of section 7 that the modelled
operations return (the error values of the store are not among the
sources). -/
inductive Error where
  | ValidationError
  | NotFoundError
deriving DecidableEq, Repr

/-- The message `pb.Ref_Operation`: a record by id, as `TestDeploymentPrune`
builds it, or, modelled from section 4.3 of the spec, the latest record of a
group. -/
inductive Ref_Operation where
  | Id (id : String)
  | Latest (group : String)
deriving DecidableEq, Repr

/-- Modelled from the spec: the in-memory tables of `State` for one operation
kind (the state package itself is not among the sources): the primary table,
one row per id, and the group index, oldest entry first.  A write transaction
works on a copy of the tables, which its commit makes the state; the same
type stands for both. -/
structure State where
  table : List Deployment
  index : List IndexEntry
deriving DecidableEq, Repr

/-- The state `TestState` returns: nothing stored. -/
def State.empty : State where
  table := []
  index := []

/-- Modelled from the spec: the operation descriptor `appOperation`, of which
the store reads the retention limit, 0 meaning unbounded (the declaration of
`deploymentOp` is not among the sources). -/
structure appOperation where
  RetentionLimit : Nat
deriving DecidableEq, Repr

/-- The index entry of a record. -/
def Deployment.entry (d : Deployment) : IndexEntry where
  Group := d.Application
  Id := d.Id

/-- Modelled from the spec: the counter `indexedRecords` of an operation,
derived from the index as section 9 asks: the number of indexed records. -/
def State.indexedRecords (s : State) : Nat :=
  s.index.length

/-- The number of indexed records of the group `G`. -/
def State.count (s : State) (G : String) : Nat :=
  (s.index.filter (fun e => e.Group = G)).length

/-- Modelled from the spec: `Delete(id)` inside a transaction (section 4.1):
the record and all its index entries are removed; an absent id changes
nothing. -/
def State.Delete (txn : State) (id : String) : State where
  table := txn.table.filter (fun d => d.Id ≠ id)
  index := txn.index.filter (fun e => e.Id ≠ id)

/-- Modelled from the spec: the deletion loop of the pruner of section 4.2
(app_operation.go is not among the sources) over the entries to retire,
oldest first: each record is deleted from the primary table and from the
index, and counted. -/
def pruneLoop : List IndexEntry → State → Nat × State
  | [], txn => (0, txn)
  | e :: es, txn =>
    let r := pruneLoop es (txn.Delete e.Id)
    (r.1 + 1, r.2)

/-- Modelled from the spec: the retention pruner `appOperation.pruneOld(txn,
max)` of section 4.2 (app_operation.go is not among the sources): the indexed
records are enumerated oldest first and, if their count exceeds `max`, the
oldest `count - max` are deleted within the transaction; the number deleted
is returned.  As in `TestDeploymentPrune` the call takes the transaction and
the limit only, and counts through the one `indexedRecords` of the operation:
all indexed records of the kind are counted together. -/
def appOperation.pruneOld (_op : appOperation) (txn : State) (max : Nat) :
    Except Error (Nat × State) :=
  let count := txn.indexedRecords
  if count ≤ max then .ok (0, txn)
  else .ok (pruneLoop (txn.index.take (count - max)) txn)

/-- Modelled from the spec: steps (a) and (b) of `Put` (section 4.1; its
code, app_operation.go, is not among the sources) inside its transaction: the
record replaces the row with its id in the primary table, and its index entry,
keyed by the insertion sequence, becomes the newest of the index. -/
def State.upsert (txn : State) (value : Deployment) : State where
  table := txn.table.filter (fun d => d.Id ≠ value.Id) ++ [value]
  index := txn.index.filter (fun e => e.Id ≠ value.Id) ++ [value.entry]

/-- Modelled from the spec: the generic `Put` of section 4.1, which
`DeploymentPut` delegates to (app_operation.go is not among the sources).  A
record without an id is refused; otherwise, in one transaction, the record is
written and indexed, the pruner runs with the retention limit unless that is
0, and the transaction commits.  The flag does not decide whether the record
is indexed: the specification indexes a record written with `true`, and
`TestDeploymentPrune` writes A, B and C with `false` and requires them to be
counted and pruned. -/
def appOperation.Put (op : appOperation) (s : State) (_index : Bool) (value : Deployment) :
    Except Error State :=
  if value.Id = "" then .error .ValidationError
  else
    let txn := s.upsert value
    if op.RetentionLimit = 0 then .ok txn
    else
      match op.pruneOld txn op.RetentionLimit with
      | .error err => .error err
      | .ok (_, txn) => .ok txn

/-- Modelled from the spec: the reference resolver of section 4.3: an id is
returned unchanged, the latest of a group is the id of its newest index
entry. -/
def appOperation.resolve (_op : appOperation) (s : State) : Ref_Operation → Except Error String
  | .Id id => .ok id
  | .Latest group =>
    match (s.index.filter (fun e => e.Group = group)).getLast? with
    | some e => .ok e.Id
    | none => .error .NotFoundError

/-- Modelled from the spec: the generic `Get` of section 4.1, which
`DeploymentGet` delegates to: the reference is resolved and the row with that
id returned; an error stands for a nil record with `NotFoundError`. -/
def appOperation.Get (op : appOperation) (s : State) (ref : Ref_Operation) :
    Except Error Deployment :=
  match op.resolve s ref with
  | .error err => .error err
  | .ok id =>
    match s.table.find? (fun d => d.Id = id) with
    | some d => .ok d
    | none => .error .NotFoundError

/-- A sequence of `Put` calls, each with its flag, in order; a refused `Put`
leaves the state as it was. -/
def appOperation.PutAll (op : appOperation) : State → List (Bool × Deployment) → State
  | s, [] => s
  | s, (index, value) :: rest =>
    match op.Put s index value with
    | .ok s' => op.PutAll s' rest
    | .error _ => op.PutAll s rest

/-- The state that holds exactly the records `ds`, all indexed, oldest
first. -/
def State.ofList (ds : List Deployment) : State where
  table := ds
  index := ds.map Deployment.entry

/-- The records a retention limit keeps of `ds`, oldest first: all of them
for the limit 0, otherwise the newest `limit`. -/
def keep (limit : Nat) (ds : List Deployment) : List Deployment :=
  if limit = 0 then ds else ds.drop (ds.length - limit)

/-- The tables `pruneOld` with limit `max` leaves: the rows and index entries
that share no id with one of the oldest `count - max` index entries. -/
def State.pruned (txn : State) (max : Nat) : State where
  table := txn.table.filter (fun d =>
    d.Id ∉ (txn.index.take (txn.indexedRecords - max)).map IndexEntry.Id)
  index := txn.index.filter (fun e =>
    e.Id ∉ (txn.index.take (txn.indexedRecords - max)).map IndexEntry.Id)

/-- The retention limit of an operation as a bound on a count: none for the
limit 0, which means unbounded. -/
def appOperation.limit (op : appOperation) : ℕ∞ :=
  if op.RetentionLimit = 0 then ⊤ else (op.RetentionLimit : ℕ∞)

/-- The number of records that are left of a long enough sequence of `Put`s
under the retention limit `limit` once `pruneOld` has run with `max`: `max`,
or the retention limit if that is smaller and not 0. -/
def kept (limit max : Nat) : Nat :=
  if limit = 0 then max else min max limit

/-- The records A, B and C of `TestDeploymentPrune`, as `TestValidDeployment`
completes them. -/
def testDeployment (id : String) : Deployment where
  Id := id
  Application := "a_test"
  Status := 0

end state

/-! # Theorems -/

/-! ## internal/runner/operation_docs.go -/

namespace runner

theorem mapGet_filter_ne {V : Type} (m : GoMap V) (k k' : String) (h : k' ≠ k) :
    mapGet (m.filter (fun p => p.1 ≠ k)) k' = mapGet m k' := by
  induction m with
  | nil => rfl
  | cons p m ih =>
    unfold mapGet at ih ⊢
    by_cases hp : p.1 = k
    · have hk : ¬ p.1 = k' := fun e => h (e ▸ hp)
      rw [List.filter_cons_of_neg (by simpa using hp), List.find?_cons_of_neg _ (by simpa using hk)]
      exact ih
    · rw [List.filter_cons_of_pos (by simpa using hp)]
      by_cases hk : p.1 = k'
      · rw [List.find?_cons_of_pos _ (by simpa using hk), List.find?_cons_of_pos _ (by simpa using hk)]
      · rw [List.find?_cons_of_neg _ (by simpa using hk), List.find?_cons_of_neg _ (by simpa using hk)]
        exact ih

theorem mapGet_mapSet {V : Type} (m : GoMap V) (k k' : String) (v : V) :
    mapGet (mapSet m k v) k' = if k' = k then some v else mapGet m k' := by
  by_cases h : k' = k
  · subst h
    simp [mapSet, mapGet, List.find?]
  · have hk : ¬ k = k' := fun e => h e.symm
    have := mapGet_filter_ne m k k' h
    unfold mapGet at this ⊢
    rw [if_neg h, mapSet, List.find?_cons_of_neg _ (by simpa using hk)]
    exact this

theorem mem_mapKeys_mapSet {V : Type} (m : GoMap V) (k k' : String) (v : V) :
    k' ∈ mapKeys (mapSet m k v) ↔ k' = k ∨ k' ∈ mapKeys m := by
  unfold mapKeys mapSet
  simp only [List.map_cons, List.mem_cons, List.mem_map, List.mem_filter]
  constructor
  · rintro (h | ⟨p, ⟨hp, _⟩, rfl⟩)
    · exact Or.inl h
    · exact Or.inr ⟨p, hp, rfl⟩
  · rintro (h | ⟨p, hp, rfl⟩)
    · exact Or.inl h
    · by_cases e : p.1 = k
      · exact Or.inl e
      · exact Or.inr ⟨p, ⟨hp, by simpa using e⟩, rfl⟩

theorem nodup_mapKeys_mapSet {V : Type} (m : GoMap V) (k : String) (v : V)
    (h : (mapKeys m).Nodup) : (mapKeys (mapSet m k v)).Nodup := by
  unfold mapKeys mapSet at *
  simp only [List.map_cons, List.nodup_cons, List.mem_map, List.mem_filter]
  refine ⟨?_, ?_⟩
  · rintro ⟨p, ⟨_, hp⟩, e⟩
    simp [e] at hp
  · exact (List.filter_sublist m).map Prod.fst |>.nodup h

theorem mapGet_fieldLoop (fs : List FieldDocs) (m : GoMap Job_DocsResult_FieldDocumentation)
    (k : String) :
    mapGet (fieldLoop fs m) k =
      match (fs.filter (fun f => f.Field = k)).getLast? with
      | some f => some (fieldDoc f)
      | none => mapGet m k := by
  induction fs generalizing m with
  | nil => simp [fieldLoop]
  | cons f fs ih =>
    rw [fieldLoop, ih, mapGet_mapSet]
    by_cases hf : f.Field = k
    · simp only [List.filter, hf, decide_True]
      cases hl : (fs.filter (fun f => f.Field = k)) with
      | nil => simp
      | cons g gs =>
        rw [List.getLast?_cons_cons]
        cases hg : (g :: gs).getLast? with
        | none => simp at hg
        | some x => simp
    · have hk : ¬ k = f.Field := fun e => hf e.symm
      simp [List.filter, hf, hk]

theorem mem_mapKeys_fieldLoop (fs : List FieldDocs)
    (m : GoMap Job_DocsResult_FieldDocumentation) (k : String) :
    k ∈ mapKeys (fieldLoop fs m) ↔ k ∈ mapKeys m ∨ ∃ f ∈ fs, f.Field = k := by
  induction fs generalizing m with
  | nil => simp [fieldLoop]
  | cons f fs ih =>
    rw [fieldLoop, ih, mem_mapKeys_mapSet]
    simp only [List.mem_cons, exists_eq_or_imp]
    constructor
    · rintro ((h | h) | h)
      · exact Or.inr (Or.inl h.symm)
      · exact Or.inl h
      · exact Or.inr (Or.inr h)
    · rintro (h | h | h)
      · exact Or.inl (Or.inr h)
      · exact Or.inl (Or.inl h.symm)
      · exact Or.inr h

theorem nodup_mapKeys_fieldLoop (fs : List FieldDocs)
    (m : GoMap Job_DocsResult_FieldDocumentation) (h : (mapKeys m).Nodup) :
    (mapKeys (fieldLoop fs m)).Nodup := by
  induction fs generalizing m with
  | nil => simpa [fieldLoop] using h
  | cons f fs ih =>
    rw [fieldLoop]
    exact ih _ (nodup_mapKeys_mapSet m _ _ h)

theorem componentLoop_ok {ε C : Type} (D : C → Except ε (Option Documentation))
    (app : App C) (cs : List C) (results : List Job_DocsResult_Result)
    (h : ∀ c ∈ cs, app.ComponentProto c ≠ none → ∃ d, D c = .ok d) :
    ∃ new, componentLoop D app cs results = .ok (results ++ new) ∧
      List.Forall₂ (EntryFor D app) (cs.filter (documented D app)) new := by
  induction cs generalizing results with
  | nil => exact ⟨[], by simp [componentLoop], by simp⟩
  | cons c cs ih =>
    have hcs : ∀ x ∈ cs, app.ComponentProto x ≠ none → ∃ d, D x = .ok d :=
      fun x hx => h x (List.mem_cons_of_mem _ hx)
    cases hp : app.ComponentProto c with
    | none =>
      obtain ⟨new, h1, h2⟩ := ih results hcs
      refine ⟨new, ?_, ?_⟩
      · rw [componentLoop, hp]; exact h1
      · rw [List.filter_cons_of_neg (by simp [documented, hp])]; exact h2
    | some info =>
      obtain ⟨d, hd⟩ := h c (List.mem_cons_self _ _) (by simp [hp])
      cases d with
      | none =>
        obtain ⟨new, h1, h2⟩ := ih results hcs
        refine ⟨new, ?_, ?_⟩
        · rw [componentLoop, hp]; simp only [hd]; exact h1
        · rw [List.filter_cons_of_neg (by simp [documented, hp, hd])]; exact h2
      | some docs =>
        obtain ⟨new, h1, h2⟩ := ih (results ++ [⟨some info, some (buildDocs docs)⟩]) hcs
        refine ⟨⟨some info, some (buildDocs docs)⟩ :: new, ?_, ?_⟩
        · rw [componentLoop, hp]; simp only [hd]; rw [h1]; simp
        · rw [List.filter_cons_of_pos (by simp [documented, hp, hd])]
          exact List.Forall₂.cons ⟨info, docs, hp, hd, rfl⟩ h2

theorem componentLoop_error {ε C : Type} (D : C → Except ε (Option Documentation))
    (app : App C) (pre : List C) (c : C) (post : List C) (e : ε)
    (results : List Job_DocsResult_Result)
    (hpre : ∀ x ∈ pre, app.ComponentProto x ≠ none → ∃ d, D x = .ok d)
    (hc : app.ComponentProto c ≠ none) (he : D c = .error e) :
    componentLoop D app (pre ++ c :: post) results = .error e := by
  induction pre generalizing results with
  | nil =>
    cases hp : app.ComponentProto c with
    | none => exact absurd hp hc
    | some info => simp only [List.nil_append, componentLoop, hp, he]
  | cons x pre ih =>
    have hrest : ∀ y ∈ pre, app.ComponentProto y ≠ none → ∃ d, D y = .ok d :=
      fun y hy => hpre y (List.mem_cons_of_mem _ hy)
    cases hp : app.ComponentProto x with
    | none => rw [List.cons_append, componentLoop, hp]; exact ih results hrest
    | some info =>
      obtain ⟨d, hd⟩ := hpre x (List.mem_cons_self _ _) (by simp [hp])
      cases d with
      | none => rw [List.cons_append, componentLoop, hp]; simp only [hd]; exact ih results hrest
      | some docs => rw [List.cons_append, componentLoop, hp]; simp only [hd]; exact ih _ hrest

theorem componentLoop_ok_inv {ε C : Type} (D : C → Except ε (Option Documentation))
    (app : App C) (cs : List C) (results rs : List Job_DocsResult_Result)
    (h : componentLoop D app cs results = .ok rs) :
    ∀ c ∈ cs, app.ComponentProto c ≠ none → ∃ d, D c = .ok d := by
  induction cs generalizing results with
  | nil => simp
  | cons c cs ih =>
    intro x hx hxp
    rw [componentLoop] at h
    cases hp : app.ComponentProto c with
    | none =>
      rw [hp] at h
      rcases List.mem_cons.mp hx with rfl | hx
      · exact absurd hp hxp
      · exact ih results h x hx hxp
    | some info =>
      rw [hp] at h
      cases hd : D c with
      | error e => simp [hd] at h
      | ok d =>
        rcases List.mem_cons.mp hx with rfl | hx
        · exact ⟨d, hd⟩
        · cases d with
          | none => simp only [hd] at h; exact ih results h x hx hxp
          | some docs => simp only [hd] at h; exact ih _ h x hx hxp

/-- C6: when every `component.Documentation` call succeeds, `executeDocsOp`
returns a result whose `Results` pair off, in the order of `app.Components()`,
with the components that have a non-nil proto and non-nil documentation: the
entry of a component carries its proto as `Component` and a non-nil `Docs`;
a component with a nil proto or nil documentation has no entry. -/
theorem executeDocsOp_results {ε C : Type} (D : C → Except ε (Option Documentation))
    (job : Job) (project : Project ε C) (ref : Ref_Application) (app : App C)
    (hop : job.Operation = some .Docs) (href : job.Application = some ref)
    (happ : project.App ref.Application = .ok app)
    (hdocs : ∀ c ∈ app.Components, app.ComponentProto c ≠ none → ∃ d, D c = .ok d) :
    ∃ results, executeDocsOp D job project = .ok { Docs := some { Results := results } } ∧
      results.length = (app.Components.filter (documented D app)).length ∧
      List.Forall₂ (fun c r => r.Component = app.ComponentProto c ∧ r.Component ≠ none ∧
          r.Docs ≠ none)
        (app.Components.filter (documented D app)) results := by
  obtain ⟨new, h1, h2⟩ := componentLoop_ok D app app.Components [] hdocs
  refine ⟨new, ?_, h2.length_eq.symm, ?_⟩
  · simp only [executeDocsOp, hop, href, happ, h1, List.nil_append]
  · refine h2.imp ?_
    rintro c r ⟨info, docs, hp, _, rfl⟩
    simp [hp]

theorem executeDocsOp_results_witness :
    ∃ results, executeDocsOp sampleDocumentation (sampleJob "web") sampleProject =
        .ok { Docs := some { Results := results } } ∧
      results.length = (sampleApp.Components.filter (documented sampleDocumentation sampleApp)).length ∧
      List.Forall₂ (fun c r => r.Component = sampleApp.ComponentProto c ∧ r.Component ≠ none ∧
          r.Docs ≠ none)
        (sampleApp.Components.filter (documented sampleDocumentation sampleApp)) results :=
  executeDocsOp_results sampleDocumentation (sampleJob "web") sampleProject
    { Application := "web", Project := "p" } sampleApp rfl rfl rfl (by
      intro c hc _
      simp only [sampleApp, List.mem_cons, List.mem_singleton, List.not_mem_nil, or_false] at hc
      rcases hc with rfl | rfl | rfl | rfl <;> exact ⟨_, rfl⟩)

/-- C8: in a result of `executeDocsOp` the entry of every documented component
has `Docs` with the `Description` and `Example` of the component's details
and a `Fields` map whose keys are exactly the `Field` names of
`docs.Fields()`, each once, the entry of a name being the copy of the last
field of `docs.Fields()` with that name. -/
theorem executeDocsOp_fields {ε C : Type} (D : C → Except ε (Option Documentation))
    (job : Job) (project : Project ε C) (res : Job_Result)
    (h : executeDocsOp D job project = .ok res) :
    ∃ ref app results, job.Application = some ref ∧ project.App ref.Application = .ok app ∧
      res.Docs = some { Results := results } ∧
      List.Forall₂ (fun c r => ∃ docs pbdocs, D c = .ok (some docs) ∧ r.Docs = some pbdocs ∧
          pbdocs.Description = docs.Details.Description ∧
          pbdocs.Example = docs.Details.Example ∧
          (∀ name, name ∈ mapKeys pbdocs.Fields ↔ ∃ f ∈ docs.Fields, f.Field = name) ∧
          (mapKeys pbdocs.Fields).Nodup ∧
          (∀ name f, (docs.Fields.filter (fun g => g.Field = name)).getLast? = some f →
            ∃ e, mapGet pbdocs.Fields name = some e ∧ e.Name = f.Field ∧ e.Type_ = f.Type_ ∧
              e.Optional = f.Optional ∧ e.Synopsis = f.Synopsis ∧ e.Summary = f.Summary ∧
              e.Default = f.Default ∧ e.EnvVar = f.EnvVar))
        (app.Components.filter (documented D app)) results := by
  unfold executeDocsOp at h
  split at h
  swap
  · exact absurd h (by simp)
  split at h
  · exact absurd h (by simp)
  rename_i ref href
  split at h
  · exact absurd h (by simp)
  rename_i app happ
  split at h
  · exact absurd h (by simp)
  rename_i results hloop
  obtain ⟨new, h1, h2⟩ := componentLoop_ok D app app.Components []
    (componentLoop_ok_inv D app app.Components [] results hloop)
  rw [hloop, List.nil_append] at h1
  injection h1 with h1
  subst h1
  injection h with h
  subst h
  refine ⟨ref, app, results, href, happ, rfl, h2.imp ?_⟩
  rintro c r ⟨info, docs, _, hd, rfl⟩
  refine ⟨docs, buildDocs docs, hd, rfl, rfl, rfl, ?_, ?_, ?_⟩
  · intro name
    rw [buildDocs, mem_mapKeys_fieldLoop]
    simp [mapKeys]
  · exact nodup_mapKeys_fieldLoop _ _ (by simp [mapKeys])
  · intro name f hf
    refine ⟨fieldDoc f, ?_, rfl, rfl, rfl, rfl, rfl, rfl, rfl⟩
    rw [buildDocs, mapGet_fieldLoop, hf]

theorem executeDocsOp_fields_witness :
    ∃ ref app results, (sampleJob "web").Application = some ref ∧
      sampleProject.App ref.Application = .ok app ∧
      sampleResult.Docs =
        some { Results := results } ∧
      List.Forall₂ (fun c r => ∃ docs pbdocs, sampleDocumentation c = .ok (some docs) ∧
          r.Docs = some pbdocs ∧
          pbdocs.Description = docs.Details.Description ∧
          pbdocs.Example = docs.Details.Example ∧
          (∀ name, name ∈ mapKeys pbdocs.Fields ↔ ∃ f ∈ docs.Fields, f.Field = name) ∧
          (mapKeys pbdocs.Fields).Nodup ∧
          (∀ name f, (docs.Fields.filter (fun g => g.Field = name)).getLast? = some f →
            ∃ e, mapGet pbdocs.Fields name = some e ∧ e.Name = f.Field ∧ e.Type_ = f.Type_ ∧
              e.Optional = f.Optional ∧ e.Synopsis = f.Synopsis ∧ e.Summary = f.Summary ∧
              e.Default = f.Default ∧ e.EnvVar = f.EnvVar))
        (app.Components.filter (documented sampleDocumentation app)) results :=
  executeDocsOp_fields sampleDocumentation (sampleJob "web") sampleProject sampleResult
    (by decide)

/-- C9: for a docs job with an application reference, `executeDocsOp` is
all-or-nothing: an error of `project.App` is returned with a nil result; an
error of `component.Documentation` for a component with a non-nil proto, the
calls before it having succeeded, is returned with a nil result whatever
entries were built before; the call never panics; and a result with a nil
error is returned exactly when `project.App` succeeds and
`component.Documentation` fails for no component with a non-nil proto. -/
theorem executeDocsOp_all_or_nothing {ε C : Type} (D : C → Except ε (Option Documentation))
    (job : Job) (project : Project ε C) (ref : Ref_Application)
    (hop : job.Operation = some .Docs) (href : job.Application = some ref) :
    (∀ e, project.App ref.Application = .error e → executeDocsOp D job project = .error e) ∧
    (∀ app pre c post e, project.App ref.Application = .ok app →
      app.Components = pre ++ c :: post →
      (∀ x ∈ pre, app.ComponentProto x ≠ none → ∃ d, D x = .ok d) →
      app.ComponentProto c ≠ none → D c = .error e →
      executeDocsOp D job project = .error e) ∧
    (∀ msg, executeDocsOp D job project ≠ .panic msg) ∧
    ((∃ res, executeDocsOp D job project = .ok res) ↔
      ∃ app, project.App ref.Application = .ok app ∧
        ∀ c ∈ app.Components, app.ComponentProto c ≠ none → ∃ d, D c = .ok d) := by
  refine ⟨?_, ?_, ?_, ?_, ?_⟩
  · intro e he
    simp only [executeDocsOp, hop, href, he]
  · intro app pre c post e happ hcs hpre hc he
    have := componentLoop_error D app pre c post e [] hpre hc he
    simp only [executeDocsOp, hop, href, happ, hcs, this]
  · intro msg
    simp only [executeDocsOp, hop, href]
    cases project.App ref.Application with
    | error e => simp
    | ok app =>
      cases hl : componentLoop D app app.Components [] with
      | error e => simp [hl]
      | ok rs => simp [hl]
  · rintro ⟨res, h⟩
    simp only [executeDocsOp, hop, href] at h
    cases happ : project.App ref.Application with
    | error e => simp [happ] at h
    | ok app =>
      refine ⟨app, rfl, ?_⟩
      cases hl : componentLoop D app app.Components [] with
      | error e => simp [happ, hl] at h
      | ok rs => exact componentLoop_ok_inv D app app.Components [] rs hl
  · rintro ⟨app, happ, hdocs⟩
    obtain ⟨new, h1, _⟩ := componentLoop_ok D app app.Components [] hdocs
    exact ⟨{ Docs := some { Results := [] ++ new } },
      by simp only [executeDocsOp, hop, href, happ, h1]⟩

theorem executeDocsOp_all_or_nothing_witness :
    executeDocsOp sampleDocumentation (sampleJob "missing") sampleProject =
        .error "application not found" ∧
      executeDocsOp sampleDocumentation (sampleJob "broken") sampleProject =
        .error "plugin crashed" ∧
      ∃ res, executeDocsOp sampleDocumentation (sampleJob "web") sampleProject = .ok res :=
  ⟨(executeDocsOp_all_or_nothing sampleDocumentation (sampleJob "missing") sampleProject
      { Application := "missing", Project := "p" } rfl rfl).1 _ rfl,
   (executeDocsOp_all_or_nothing sampleDocumentation (sampleJob "broken") sampleProject
      { Application := "broken", Project := "p" } rfl rfl).2.1 failingApp [0] 4 [3]
      "plugin crashed" rfl rfl (by
        intro x hx _
        rw [List.mem_singleton] at hx
        subst hx
        exact ⟨_, rfl⟩) (by simp [failingApp]) rfl,
   ⟨sampleResult, by decide⟩⟩

end runner

/-! ## sdk/internal-shared/mapper/set.go -/

namespace mapper

theorem Convert_ok_indep (s : Set) (types : Types) (elem : GoType) (x a : Value)
    (h : (s.Convert types x (.ptr elem (some a))).result = .ok ()) :
    ∃ raw, ∀ b, s.Convert types x (.ptr elem (some b)) = ⟨.ok (), .ptr elem (some raw)⟩ := by
  unfold Set.Convert at h ⊢
  simp only at h ⊢
  cases hc : s.ChainTarget elem x with
  | none => simp [hc] at h
  | some chain =>
    simp only [hc] at h ⊢
    cases hcall : chain.Call with
    | panic msg => simp [hcall] at h
    | error err => simp [hcall] at h
    | ok raw =>
      simp only [hcall] at h ⊢
      cases hty : raw.Type with
      | none => simp [hty] at h
      | some t =>
        simp only [hty] at h ⊢
        by_cases ht : types.AssignableTo t elem = true
        · exact ⟨raw, fun b => by simp [ht]⟩
        · simp [ht] at h

theorem Convert_error_indep (s : Set) (types : Types) (elem : GoType) (x a : Value) (e : Err)
    (h : (s.Convert types x (.ptr elem (some a))).result = .error e) :
    ∀ b, s.Convert types x (.ptr elem (some b)) = ⟨.error e, .ptr elem (some b)⟩ := by
  unfold Set.Convert at h ⊢
  simp only at h ⊢
  cases hc : s.ChainTarget elem x with
  | none =>
    simp only [hc] at h ⊢
    intro b
    injection h with h
    rw [← h]
    rfl
  | some chain =>
    simp only [hc] at h ⊢
    cases hcall : chain.Call with
    | panic msg => simp [hcall] at h
    | error err =>
      simp only [hcall] at h ⊢
      intro b
      injection h with h
      rw [h]
    | ok raw =>
      simp only [hcall] at h ⊢
      cases hty : raw.Type with
      | none => simp [hty] at h
      | some t =>
        simp only [hty] at h ⊢
        by_cases ht : types.AssignableTo t elem = true
        · simp [ht] at h
        · simp [ht] at h

theorem getElem?_append_cons_length (pre : List Value) (z : Value) (zs : List Value) :
    (pre ++ z :: zs)[pre.length]? = some z := by
  induction pre with
  | nil => simp
  | cons p pre ih => simpa using ih

theorem set_append_cons_length (pre : List Value) (z v : Value) (zs : List Value) :
    (pre ++ z :: zs).set pre.length v = (pre ++ [v]) ++ zs := by
  induction pre with
  | nil => simp
  | cons p pre ih => simp [ih]

/-- The loop over inputs that all convert: the converted values take the
place of the elements from `pre.length` on. -/
theorem convertLoop_ok (s : Set) (types : Types) (elem : GoType) (rest pre zs : List Value)
    (hlen : zs.length = rest.length)
    (h : ∀ x ∈ rest, (s.Convert types x (.ptr elem (some (Zero elem)))).result = .ok ()) :
    ∃ ys, convertLoop s types elem rest pre.length (pre ++ zs) = (.ok (), pre ++ ys) ∧
      List.Forall₂ (fun x y => s.Convert types x (.ptr elem (some (Zero elem))) =
        ⟨.ok (), .ptr elem (some y)⟩) rest ys := by
  induction rest generalizing pre zs with
  | nil =>
    have : zs = [] := List.length_eq_zero.mp hlen
    subst this
    exact ⟨[], by simp [convertLoop], List.Forall₂.nil⟩
  | cons x rest ih =>
    cases zs with
    | nil => simp at hlen
    | cons z zs =>
      obtain ⟨raw, hraw⟩ := Convert_ok_indep s types elem x _ (h x (List.mem_cons_self _ _))
      obtain ⟨ys, h1, h2⟩ := ih (pre ++ [raw]) zs (by simpa using hlen)
        (fun y hy => h y (List.mem_cons_of_mem _ hy))
      refine ⟨raw :: ys, ?_, List.Forall₂.cons (hraw _) h2⟩
      rw [convertLoop]
      simp only [getElem?_append_cons_length, hraw z, set_append_cons_length]
      have hl : (pre ++ [raw]).length = pre.length + 1 := by simp
      rw [← hl, h1]
      simp

/-- The loop over inputs of which `x` is the first that `Convert` rejects. -/
theorem convertLoop_error (s : Set) (types : Types) (elem : GoType) (r1 : List Value) (x : Value)
    (r2 pre zs : List Value) (e : Err)
    (hlen : zs.length = (r1 ++ x :: r2).length)
    (h : ∀ y ∈ r1, (s.Convert types y (.ptr elem (some (Zero elem)))).result = .ok ())
    (hx : (s.Convert types x (.ptr elem (some (Zero elem)))).result = .error e) :
    ∃ ys, convertLoop s types elem (r1 ++ x :: r2) pre.length (pre ++ zs) =
        (.error e, pre ++ ys ++ zs.drop r1.length) ∧
      List.Forall₂ (fun x y => s.Convert types x (.ptr elem (some (Zero elem))) =
        ⟨.ok (), .ptr elem (some y)⟩) r1 ys := by
  induction r1 generalizing pre zs with
  | nil =>
    cases zs with
    | nil => simp at hlen
    | cons z zs =>
      refine ⟨[], ?_, List.Forall₂.nil⟩
      rw [List.nil_append, convertLoop]
      simp only [getElem?_append_cons_length, Convert_error_indep s types elem x _ e hx z]
      simp
  | cons y r1 ih =>
    cases zs with
    | nil => simp at hlen
    | cons z zs =>
      obtain ⟨raw, hraw⟩ := Convert_ok_indep s types elem y _ (h y (List.mem_cons_self _ _))
      obtain ⟨ys, h1, h2⟩ := ih (pre ++ [raw]) zs (by simpa using hlen)
        (fun w hw => h w (List.mem_cons_of_mem _ hw))
      refine ⟨raw :: ys, ?_, List.Forall₂.cons (hraw _) h2⟩
      rw [List.cons_append, convertLoop]
      simp only [getElem?_append_cons_length, hraw z, set_append_cons_length]
      have hl : (pre ++ [raw]).length = pre.length + 1 := by simp
      rw [← hl, h1]
      simp

/-- C7: `ConvertSlice` converts element by element.  For an input slice and a
pointer to a slice variable, if `Convert` succeeds on every element, the
result is nil and the variable holds a non-nil slice as long as the input
whose i-th element is the value `Convert` produces for the i-th input (for an
empty or nil input an empty non-nil slice).  When `in` is not a slice, `out`
is not a pointer, or `out` does not point to a slice variable, an error is
returned and `out` is as before. -/
theorem ConvertSlice_elementwise (s : Set) (types : Types) (in_ out : Value) :
    (∀ inElem elems elem old, in_ = .slice inElem elems →
      out = .ptr (.slice elem) (some old) →
      (∀ x ∈ elems.getD [], (s.Convert types x (.ptr elem (some (Zero elem)))).result = .ok ()) →
      ∃ ys, s.ConvertSlice types in_ out =
          ⟨.ok (), .ptr (.slice elem) (some (.slice elem (some ys)))⟩ ∧
        ys.length = (elems.getD []).length ∧
        List.Forall₂ (fun x y => s.Convert types x (.ptr elem (some (Zero elem))) =
          ⟨.ok (), .ptr elem (some y)⟩) (elems.getD []) ys) ∧
    (in_.Kind ≠ .Slice →
      s.ConvertSlice types in_ out = ⟨.error (.inputMustBeSlice in_.Type), out⟩) ∧
    (in_.Kind = .Slice → out.Kind ≠ .Ptr →
      s.ConvertSlice types in_ out = ⟨.error (.outputMustBePointer out.Type), out⟩) ∧
    (in_.Kind = .Slice → out.Kind = .Ptr → (∀ elem v, out ≠ .ptr (.slice elem) (some v)) →
      s.ConvertSlice types in_ out = ⟨.error (.outputPointerValueMustBeSlice out.Type), out⟩) := by
  refine ⟨?_, ?_, ?_, ?_⟩
  · rintro inElem elems elem old rfl rfl h
    have hlen : (List.replicate (Value.slice inElem elems).Len (Zero elem)).length =
        (elems.getD []).length := by
      cases elems <;> simp [Value.Len]
    obtain ⟨ys, h1, h2⟩ := convertLoop_ok s types elem (elems.getD []) [] _ hlen h
    refine ⟨ys, ?_, h2.length_eq.symm, h2⟩
    simp only [List.length_nil, List.nil_append] at h1
    simp only [Set.ConvertSlice, h1]
  · intro hk
    cases in_ <;> first | rfl | exact absurd rfl hk
  · intro hk ho
    cases in_ <;> try (simp [Value.Kind] at hk)
    cases out <;> first | rfl | exact absurd rfl ho
  · intro hk ho hne
    cases in_ <;> try (simp [Value.Kind] at hk)
    cases out <;> try (simp [Value.Kind] at ho)
    rename_i t target
    cases t with
    | named n => rfl
    | iface n => rfl
    | ptr t => rfl
    | slice elem =>
      cases target with
      | none => rfl
      | some v => exact absurd rfl (hne elem v)

theorem ConvertSlice_elementwise_witness :
    ∃ ys, sampleSet.ConvertSlice sampleTypes (.slice (.named "int") (some [.base "int" 4, .base "int" 10]))
          (.ptr (.slice (.iface "Stringer")) (some (.slice (.iface "Stringer") none))) =
          ⟨.ok (), .ptr (.slice (.iface "Stringer")) (some (.slice (.iface "Stringer") (some ys)))⟩ ∧
        ys.length = 2 ∧
        List.Forall₂ (fun x y => sampleSet.Convert sampleTypes x (.ptr (.iface "Stringer")
            (some (Zero (.iface "Stringer")))) = ⟨.ok (), .ptr (.iface "Stringer") (some y)⟩)
          [.base "int" 4, .base "int" 10] ys :=
  (ConvertSlice_elementwise sampleSet sampleTypes (.slice (.named "int") (some [.base "int" 4, .base "int" 10]))
    (.ptr (.slice (.iface "Stringer")) (some (.slice (.iface "Stringer") none)))).1
    (.named "int") (some [.base "int" 4, .base "int" 10]) (.iface "Stringer")
    (.slice (.iface "Stringer") none) rfl rfl (by
      intro x hx
      simp only [Option.getD_some, List.mem_cons, List.mem_singleton, List.not_mem_nil,
        or_false] at hx
      rcases hx with rfl | rfl <;> rfl)

/-- C10: `ConvertSlice` is not atomic.  When the first input element that
`Convert` rejects is at index i (after `r1`, of length i), `ConvertSlice`
returns that element's error and the variable `out` points to holds a fresh
slice as long as the input: the converted values of the elements before i,
then zero values; what the variable held before plays no part.
`ConvertType` for a slice type returns the same error and no value. -/
theorem ConvertSlice_not_atomic (s : Set) (types : Types) (inElem elem : GoType) (r1 : List Value)
    (x : Value) (r2 : List Value) (e : Err)
    (h1 : ∀ y ∈ r1, (s.Convert types y (.ptr elem (some (Zero elem)))).result = .ok ())
    (hx : (s.Convert types x (.ptr elem (some (Zero elem)))).result = .error e) :
    ∃ ys, ys.length = r1.length ∧
      List.Forall₂ (fun x y => s.Convert types x (.ptr elem (some (Zero elem))) =
        ⟨.ok (), .ptr elem (some y)⟩) r1 ys ∧
      (∀ old, s.ConvertSlice types (.slice inElem (some (r1 ++ x :: r2)))
          (.ptr (.slice elem) (some old)) =
        ⟨.error e, .ptr (.slice elem) (some (.slice elem
          (some (ys ++ List.replicate (r2.length + 1) (Zero elem)))))⟩) ∧
      (ys ++ List.replicate (r2.length + 1) (Zero elem)).length = (r1 ++ x :: r2).length ∧
      (∀ outType t, outType.Type = some t → t.Elem = some (.slice elem) →
        s.ConvertType types (.slice inElem (some (r1 ++ x :: r2))) outType = .error e) := by
  obtain ⟨ys, hloop, hys⟩ := convertLoop_error s types elem r1 x r2 []
    (List.replicate (r1 ++ x :: r2).length (Zero elem)) e (by simp) h1 hx
  have hdrop : (List.replicate (r1 ++ x :: r2).length (Zero elem)).drop r1.length =
      List.replicate (r2.length + 1) (Zero elem) := by
    simp
  simp only [List.length_nil, List.nil_append, hdrop] at hloop
  have hslice : ∀ old, s.ConvertSlice types (.slice inElem (some (r1 ++ x :: r2)))
      (.ptr (.slice elem) (some old)) =
      ⟨.error e, .ptr (.slice elem) (some (.slice elem
        (some (ys ++ List.replicate (r2.length + 1) (Zero elem)))))⟩ := by
    intro old
    simp only [Set.ConvertSlice, Value.Len, Option.getD_some, hloop]
  refine ⟨ys, hys.length_eq.symm, hys, hslice, ?_, ?_⟩
  · simp [hys.length_eq]
  · intro outType t ht hel
    simp only [Set.ConvertType, ht, hel, hslice]

theorem ConvertSlice_not_atomic_witness :
    ∃ ys, ys.length = 1 ∧
      List.Forall₂ (fun x y => sampleSet.Convert sampleTypes x (.ptr (.iface "Stringer")
          (some (Zero (.iface "Stringer")))) = ⟨.ok (), .ptr (.iface "Stringer") (some y)⟩)
        [.base "int" 4] ys ∧
      (∀ old, sampleSet.ConvertSlice sampleTypes
          (.slice (.named "int") (some ([Value.base "int" 4] ++ .base "int" 7 :: [.base "int" 10])))
          (.ptr (.slice (.iface "Stringer")) (some old)) =
        ⟨.error (.call "odd"), .ptr (.slice (.iface "Stringer")) (some (.slice (.iface "Stringer")
          (some (ys ++ List.replicate ([Value.base "int" 10].length + 1)
            (Zero (.iface "Stringer"))))))⟩) ∧
      (ys ++ List.replicate ([Value.base "int" 10].length + 1) (Zero (.iface "Stringer"))).length =
        ([Value.base "int" 4] ++ Value.base "int" 7 :: [Value.base "int" 10]).length ∧
      (∀ outType t, outType.Type = some t → t.Elem = some (.slice (.iface "Stringer")) →
        sampleSet.ConvertType sampleTypes
          (.slice (.named "int") (some ([Value.base "int" 4] ++ .base "int" 7 :: [.base "int" 10])))
          outType = .error (.call "odd")) :=
  ConvertSlice_not_atomic sampleSet sampleTypes (.named "int") (.iface "Stringer") [.base "int" 4]
    (.base "int" 7) [.base "int" 10] (.call "odd") (by
      intro y hy
      rw [List.mem_singleton] at hy
      subst hy
      rfl) rfl

/-- The use `ConvertType`'s comment describes, with an interface type: the
value of the chain, a `string`, is stored in the fresh variable of type
`Stringer` and returned. -/
theorem ConvertType_sample :
    sampleSet.ConvertType sampleTypes (.base "int" 4) (.ptr (.iface "Stringer") none) =
      .ok (.base "string" 2) :=
  rfl

end mapper

/-! ## internal/server/singleprocess/state -/

namespace state

theorem pruneLoop_fst (es : List IndexEntry) (txn : State) :
    (pruneLoop es txn).1 = es.length := by
  induction es generalizing txn with
  | nil => rfl
  | cons e es ih => simp [pruneLoop, ih]

/-- What the deletion loop leaves: the rows and the index entries whose id is
not the id of a retired entry. -/
theorem pruneLoop_snd (es : List IndexEntry) (txn : State) :
    (pruneLoop es txn).2 =
      { table := txn.table.filter (fun d => d.Id ∉ es.map IndexEntry.Id)
        index := txn.index.filter (fun e => e.Id ∉ es.map IndexEntry.Id) } := by
  induction es generalizing txn with
  | nil => simp [pruneLoop]
  | cons e es ih =>
    simp only [pruneLoop, ih, State.Delete, List.filter_filter, List.map_cons, List.mem_cons,
      not_or]
    congr 1
    · apply List.filter_congr
      intro d _
      simp [Bool.and_comm]
    · apply List.filter_congr
      intro d _
      simp [Bool.and_comm]

/-- In a list without repeated keys, removing the elements that share a key
with one of the first `k` removes exactly the first `k`. -/
theorem filter_not_mem_take {α : Type} (f : α → String) (l : List α) (k : Nat)
    (h : (l.map f).Nodup) :
    l.filter (fun x => f x ∉ (l.take k).map f) = l.drop k := by
  induction l generalizing k with
  | nil => simp
  | cons x l ih =>
    cases k with
    | zero => simp
    | succ k =>
      rw [List.map_cons, List.nodup_cons] at h
      simp only [List.take_succ_cons, List.map_cons, List.mem_cons, not_or, List.drop_succ_cons]
      rw [List.filter_cons_of_neg (by simp)]
      rw [← ih k h.2]
      apply List.filter_congr
      intro y hy
      have : f y ≠ f x := fun e => h.1 (e ▸ List.mem_map_of_mem f hy)
      simp [this]

/-- Whatever the keys, removing the elements that share a key with one of the
first `k` leaves at most the elements after the first `k`. -/
theorem length_filter_not_mem_take_le {α : Type} (f : α → String) (l : List α) (k : Nat) :
    (l.filter (fun x => f x ∉ (l.take k).map f)).length ≤ l.length - k := by
  have hsplit : l.filter (fun x => f x ∉ (l.take k).map f) =
      (l.take k).filter (fun x => f x ∉ (l.take k).map f) ++
        (l.drop k).filter (fun x => f x ∉ (l.take k).map f) := by
    rw [← List.filter_append, List.take_append_drop]
  have hnil : (l.take k).filter (fun x => f x ∉ (l.take k).map f) = [] := by
    rw [List.filter_eq_nil_iff]
    intro x hx
    have : f x ∈ (l.take k).map f := List.mem_map_of_mem f hx
    simpa using this
  rw [hsplit, hnil, List.nil_append]
  exact (List.length_filter_le _ _).trans (by simp)

/-- The pruner never fails; it returns the excess of the count over `max`
and leaves the rows and index entries that share no id with one of the
oldest `count - max` entries. -/
theorem pruneOld_eq (op : appOperation) (txn : State) (max : Nat) :
    op.pruneOld txn max = .ok (txn.indexedRecords - max, txn.pruned max) := by
  unfold appOperation.pruneOld State.pruned
  by_cases h : txn.indexedRecords ≤ max
  · simp [h, Nat.sub_eq_zero_of_le h]
  · have hk : (txn.index.take (txn.indexedRecords - max)).length = txn.indexedRecords - max := by
      simp [State.indexedRecords]
    simp only [h, if_false]
    congr 1
    rw [Prod.ext_iff]
    exact ⟨by rw [pruneLoop_fst, hk], by rw [pruneLoop_snd]⟩

theorem map_Id_map_entry (ds : List Deployment) :
    (ds.map Deployment.entry).map IndexEntry.Id = ds.map Deployment.Id := by
  simp [List.map_map, Function.comp_def, Deployment.entry]

theorem pruneOld_ofList (op : appOperation) (ds : List Deployment) (max : Nat)
    (h : (ds.map Deployment.Id).Nodup) :
    op.pruneOld (State.ofList ds) max =
      .ok (ds.length - max, State.ofList (ds.drop (ds.length - max))) := by
  rw [pruneOld_eq]
  have hn : (State.ofList ds).indexedRecords = ds.length := by
    simp [State.indexedRecords, State.ofList]
  unfold State.pruned
  rw [hn]
  congr 2
  simp only [State.ofList, State.mk.injEq]
  constructor
  · have e : List.map IndexEntry.Id (List.take (ds.length - max) (List.map Deployment.entry ds)) =
        (ds.take (ds.length - max)).map Deployment.Id := by
      rw [← map_Id_map_entry]
      simp only [List.map_take]
    simp only [e]
    exact filter_not_mem_take Deployment.Id ds _ h
  · rw [filter_not_mem_take IndexEntry.Id _ _ (by rw [map_Id_map_entry]; exact h), List.map_drop]

theorem filter_ne_of_not_mem {α : Type} (f : α → String) (l : List α) (id : String)
    (h : id ∉ l.map f) : l.filter (fun x => f x ≠ id) = l := by
  rw [List.filter_eq_self]
  intro x hx
  have : f x ≠ id := fun e => h (e ▸ List.mem_map_of_mem f hx)
  simpa using this

/-- A `Put` of a fresh id into a state that holds the records `ds`. -/
theorem Put_ofList (op : appOperation) (ds : List Deployment) (index : Bool) (d : Deployment)
    (hd : d.Id ≠ "") (hnew : d.Id ∉ ds.map Deployment.Id) (h : (ds.map Deployment.Id).Nodup) :
    op.Put (State.ofList ds) index d = .ok (State.ofList (keep op.RetentionLimit (ds ++ [d]))) := by
  have htxn : (State.ofList ds).upsert d = State.ofList (ds ++ [d]) := by
    simp only [State.upsert, State.ofList, List.map_append, List.map_cons, List.map_nil,
      State.mk.injEq]
    refine ⟨?_, ?_⟩
    · rw [filter_ne_of_not_mem Deployment.Id ds d.Id hnew]
    · rw [filter_ne_of_not_mem IndexEntry.Id _ d.Id (by rw [map_Id_map_entry]; exact hnew)]
  have hnodup : ((ds ++ [d]).map Deployment.Id).Nodup := by
    rw [List.map_append, List.nodup_append]
    refine ⟨h, by simp, ?_⟩
    intro a ha hb
    simp only [List.map_cons, List.map_nil, List.mem_singleton] at hb
    exact hnew (hb ▸ ha)
  unfold appOperation.Put
  simp only [hd, if_false, htxn]
  by_cases hL : op.RetentionLimit = 0
  · simp [hL, keep]
  · simp only [hL, if_false, pruneOld_ofList op _ _ hnodup, keep]

theorem keep_keep_append (limit : Nat) (a b : List Deployment) :
    keep limit (keep limit a ++ b) = keep limit (a ++ b) := by
  unfold keep
  by_cases hL : limit = 0
  · simp [hL]
  · simp only [hL, if_false, List.length_append, List.length_drop]
    by_cases hle : a.length ≤ limit
    · simp [Nat.sub_eq_zero_of_le hle]
    · have h1 : a.length - (a.length - limit) + b.length - limit = b.length := by omega
      have h2 : a.length + b.length - limit = (a.length - limit) + b.length := by omega
      have h3 : (a ++ b).drop (a.length - limit) = a.drop (a.length - limit) ++ b :=
        List.drop_append_of_le_length (by omega)
      rw [h1, h2, ← List.drop_drop, h3]

theorem keep_sublist (limit : Nat) (ds : List Deployment) : (keep limit ds).Sublist ds := by
  unfold keep
  split
  · exact List.Sublist.refl _
  · exact List.drop_sublist _ _

/-- A sequence of `Put`s of fresh, distinct, non-empty ids into a state that
holds `xs` within the retention limit: the state then holds what the limit
keeps of all the records. -/
theorem PutAll_ofList (op : appOperation) (vs : List (Bool × Deployment)) (xs : List Deployment)
    (hxs : keep op.RetentionLimit xs = xs)
    (hnodup : ((xs ++ vs.map Prod.snd).map Deployment.Id).Nodup)
    (hvalid : ∀ v ∈ vs, v.2.Id ≠ "") :
    op.PutAll (State.ofList xs) vs =
      State.ofList (keep op.RetentionLimit (xs ++ vs.map Prod.snd)) := by
  induction vs generalizing xs with
  | nil => simp [appOperation.PutAll, hxs]
  | cons v vs ih =>
    obtain ⟨index, d⟩ := v
    have hsplit : xs ++ List.map Prod.snd ((index, d) :: vs) = (xs ++ [d]) ++ vs.map Prod.snd := by
      simp
    rw [hsplit] at hnodup ⊢
    have hxd : ((xs ++ [d]).map Deployment.Id).Nodup :=
      ((List.sublist_append_left _ _).map Deployment.Id).nodup hnodup
    have hx : (xs.map Deployment.Id).Nodup :=
      ((List.sublist_append_left _ _).map Deployment.Id).nodup hxd
    have hnew : d.Id ∉ xs.map Deployment.Id := by
      rw [List.map_append, List.nodup_append] at hxd
      intro hmem
      exact hxd.2.2 hmem (by simp)
    rw [appOperation.PutAll, Put_ofList op xs index d
      (hvalid (index, d) (List.mem_cons_self _ _)) hnew hx]
    simp only
    rw [ih (keep op.RetentionLimit (xs ++ [d]))
      (by simpa using keep_keep_append op.RetentionLimit (xs ++ [d]) [])
      ((((keep_sublist _ _).append (List.Sublist.refl _)).map Deployment.Id).nodup hnodup)
      (fun v hv => hvalid v (List.mem_cons_of_mem _ hv)),
      keep_keep_append]

theorem find?_Id_of_mem (l : List Deployment) (d : Deployment)
    (h : (l.map Deployment.Id).Nodup) (hd : d ∈ l) :
    l.find? (fun x => x.Id = d.Id) = some d := by
  induction l with
  | nil => simp at hd
  | cons x l ih =>
    rw [List.map_cons, List.nodup_cons] at h
    rcases List.mem_cons.mp hd with rfl | hd
    · simp
    · have hne : ¬ x.Id = d.Id := fun e => h.1 (e ▸ List.mem_map_of_mem Deployment.Id hd)
      rw [List.find?_cons_of_neg _ (by simpa using hne)]
      exact ih h.2 hd

theorem Get_ofList_of_mem (op : appOperation) (l : List Deployment) (d : Deployment)
    (h : (l.map Deployment.Id).Nodup) (hd : d ∈ l) :
    op.Get (State.ofList l) (.Id d.Id) = .ok d := by
  simp only [appOperation.Get, appOperation.resolve, State.ofList, find?_Id_of_mem l d h hd]

theorem Get_ofList_of_not_mem (op : appOperation) (l : List Deployment) (id : String)
    (h : id ∉ l.map Deployment.Id) :
    op.Get (State.ofList l) (.Id id) = .error .NotFoundError := by
  have : l.find? (fun x => x.Id = id) = none := by
    rw [List.find?_eq_none]
    intro x hx
    have : x.Id ≠ id := fun e => h (e ▸ List.mem_map_of_mem Deployment.Id hx)
    simpa using this
  simp only [appOperation.Get, appOperation.resolve, State.ofList, this]

theorem Put_eq (op : appOperation) (s : State) (index : Bool) (value : Deployment)
    (h : value.Id ≠ "") :
    op.Put s index value =
      .ok (if op.RetentionLimit = 0 then s.upsert value
        else (s.upsert value).pruned op.RetentionLimit) := by
  unfold appOperation.Put
  simp only [h, if_false]
  split
  · rfl
  · simp only [pruneOld_eq]

theorem Put_error (op : appOperation) (s : State) (index : Bool) (value : Deployment)
    (h : value.Id = "") : op.Put s index value = .error .ValidationError := by
  simp [appOperation.Put, h]

theorem indexedRecords_pruned_le (txn : State) (max : Nat) :
    (txn.pruned max).indexedRecords ≤ max := by
  unfold State.pruned State.indexedRecords
  have := length_filter_not_mem_take_le IndexEntry.Id txn.index (txn.index.length - max)
  simp only at this ⊢
  omega

theorem count_le_indexedRecords (s : State) (G : String) : s.count G ≤ s.indexedRecords :=
  List.length_filter_le _ _

theorem index_pruned_of_nodup (txn : State) (max : Nat)
    (h : (txn.index.map IndexEntry.Id).Nodup) :
    (txn.pruned max).index = txn.index.drop (txn.indexedRecords - max) :=
  filter_not_mem_take IndexEntry.Id txn.index _ h

theorem nodup_index_upsert (s : State) (value : Deployment)
    (h : (s.index.map IndexEntry.Id).Nodup) :
    ((s.upsert value).index.map IndexEntry.Id).Nodup := by
  simp only [State.upsert, List.map_append, List.map_cons, List.map_nil]
  rw [List.nodup_append]
  refine ⟨((List.filter_sublist _).map IndexEntry.Id).nodup h, by simp, ?_⟩
  intro a ha hb
  rw [List.mem_map] at ha
  obtain ⟨e, he, rfl⟩ := ha
  rw [List.mem_filter] at he
  simp only [List.mem_singleton] at hb
  have : e.Id ≠ value.Id := by simpa using he.2
  exact this (by simpa [Deployment.entry] using hb)

theorem nodup_index_pruned (txn : State) (max : Nat)
    (h : (txn.index.map IndexEntry.Id).Nodup) :
    ((txn.pruned max).index.map IndexEntry.Id).Nodup :=
  ((List.filter_sublist _).map IndexEntry.Id).nodup h

theorem nodup_index_Put (op : appOperation) (s s' : State) (index : Bool) (value : Deployment)
    (h : (s.index.map IndexEntry.Id).Nodup) (hput : op.Put s index value = .ok s') :
    (s'.index.map IndexEntry.Id).Nodup := by
  by_cases hv : value.Id = ""
  · rw [Put_error op s index value hv] at hput
    exact absurd hput (by simp)
  · rw [Put_eq op s index value hv] at hput
    injection hput with hput
    subst hput
    split
    · exact nodup_index_upsert s value h
    · exact nodup_index_pruned _ _ (nodup_index_upsert s value h)

theorem nodup_index_PutAll (op : appOperation) (vs : List (Bool × Deployment)) (s : State)
    (h : (s.index.map IndexEntry.Id).Nodup) :
    ((op.PutAll s vs).index.map IndexEntry.Id).Nodup := by
  induction vs generalizing s with
  | nil => exact h
  | cons v vs ih =>
    obtain ⟨index, value⟩ := v
    rw [appOperation.PutAll]
    cases hput : op.Put s index value with
    | error e => exact ih s h
    | ok s' => exact ih s' (nodup_index_Put op s s' index value h hput)

theorem indexedRecords_Put_le (op : appOperation) (s s' : State) (index : Bool)
    (value : Deployment) (hL : 0 < op.RetentionLimit) (hput : op.Put s index value = .ok s') :
    s'.indexedRecords ≤ op.RetentionLimit := by
  by_cases hv : value.Id = ""
  · rw [Put_error op s index value hv] at hput
    exact absurd hput (by simp)
  · rw [Put_eq op s index value hv, if_neg (by omega)] at hput
    injection hput with hput
    subst hput
    exact indexedRecords_pruned_le _ _

theorem indexedRecords_PutAll_le (op : appOperation) (vs : List (Bool × Deployment)) (s : State)
    (hL : 0 < op.RetentionLimit) (hs : s.indexedRecords ≤ op.RetentionLimit) :
    (op.PutAll s vs).indexedRecords ≤ op.RetentionLimit := by
  induction vs generalizing s with
  | nil => exact hs
  | cons v vs ih =>
    obtain ⟨index, value⟩ := v
    rw [appOperation.PutAll]
    cases hput : op.Put s index value with
    | error e => exact ih s hs
    | ok s' => exact ih s' (indexedRecords_Put_le op s s' index value hL hput)

theorem pruned_of_le (txn : State) (max : Nat) (h : txn.indexedRecords ≤ max) :
    txn.pruned max = txn := by
  unfold State.pruned
  simp [Nat.sub_eq_zero_of_le h]

theorem find?_filter_append_self (l : List Deployment) (value : Deployment)
    (p : Deployment → Bool) (hp : p value = true) :
    ((l.filter (fun d => d.Id ≠ value.Id) ++ [value]).filter p).find?
      (fun d => d.Id = value.Id) = some value := by
  rw [List.filter_append, List.find?_append]
  have h1 : ((l.filter (fun d => d.Id ≠ value.Id)).filter p).find?
      (fun d => d.Id = value.Id) = none := by
    rw [List.find?_eq_none]
    intro x hx
    have := (List.mem_filter.mp (List.mem_filter.mp hx).1).2
    simpa using this
  rw [h1, List.filter_cons_of_pos hp]
  simp

theorem length_keep (limit : Nat) (ds : List Deployment) :
    (keep limit ds).length = if limit = 0 then ds.length else min ds.length limit := by
  unfold keep
  split
  · rfl
  · rw [List.length_drop]
    omega

theorem keep_nil (limit : Nat) : keep limit [] = [] := by
  simp [keep]

theorem kept_le (limit max : Nat) : kept limit max ≤ max := by
  unfold kept
  split <;> omega

theorem kept_eq_max (limit max : Nat) (h : limit = 0 ∨ max ≤ limit) : kept limit max = max := by
  unfold kept
  split
  · rfl
  · rename_i h0
    have := h.resolve_left h0
    omega

/-- What `pruneOld` with `max` leaves of what the retention limit kept. -/
theorem drop_keep_kept (limit max : Nat) (ds : List Deployment) :
    (keep limit ds).drop ((keep limit ds).length - max) =
      ds.drop (ds.length - kept limit max) := by
  unfold keep kept
  split
  · rfl
  · rw [List.drop_drop, List.length_drop]
    congr 1
    omega

/-- A `Put` of a fresh id into the state a sequence of `Put`s of `xs` has
left. -/
theorem Put_ofList_keep (op : appOperation) (xs : List Deployment) (index : Bool)
    (d : Deployment) (hd : d.Id ≠ "") (hnew : d.Id ∉ xs.map Deployment.Id)
    (h : (xs.map Deployment.Id).Nodup) :
    op.Put (State.ofList (keep op.RetentionLimit xs)) index d =
      .ok (State.ofList (keep op.RetentionLimit (xs ++ [d]))) := by
  have hsub := (keep_sublist op.RetentionLimit xs).map Deployment.Id
  rw [Put_ofList op _ index d hd (fun hmem => hnew (hsub.subset hmem)) (hsub.nodup h),
    keep_keep_append]

/-- The state after a sequence of `Put`s of distinct non-empty ids into the
empty store and a `pruneOld`. -/
theorem pruneOld_PutAll (op : appOperation) (vs : List (Bool × Deployment)) (max : Nat)
    (hnodup : ((vs.map Prod.snd).map Deployment.Id).Nodup)
    (hvalid : ∀ v ∈ vs, v.2.Id ≠ "") :
    op.pruneOld (op.PutAll State.empty vs) max =
      .ok ((keep op.RetentionLimit (vs.map Prod.snd)).length - max,
        State.ofList ((vs.map Prod.snd).drop
          ((vs.map Prod.snd).length - kept op.RetentionLimit max))) := by
  have hput : op.PutAll State.empty vs =
      State.ofList (keep op.RetentionLimit (vs.map Prod.snd)) := by
    have := PutAll_ofList op vs [] (keep_nil _) (by simpa using hnodup) hvalid
    simpa [State.ofList, State.empty] using this
  have hk : ((keep op.RetentionLimit (vs.map Prod.snd)).map Deployment.Id).Nodup :=
    ((keep_sublist _ _).map Deployment.Id).nodup hnodup
  rw [hput, pruneOld_ofList op _ max hk, drop_keep_kept]

/-- A record before position `k` is not found once the first `k` records are
gone. -/
theorem Get_drop_of_lt (op : appOperation) (ds : List Deployment) (k i : Nat)
    (hnodup : (ds.map Deployment.Id).Nodup) (h : i < ds.length) (hik : i < k) :
    op.Get (State.ofList (ds.drop k)) (.Id ds[i].Id) = .error .NotFoundError := by
  apply Get_ofList_of_not_mem
  intro hmem
  rw [List.mem_map] at hmem
  obtain ⟨d, hd, hid⟩ := hmem
  rw [List.mem_drop_iff_getElem] at hd
  obtain ⟨j, hj, rfl⟩ := hd
  have hj2 : k + j < (ds.map Deployment.Id).length := by
    simp only [List.length_map]
    omega
  have hi2 : i < (ds.map Deployment.Id).length := by simpa using h
  have hinj := List.nodup_iff_injective_get.mp hnodup
  have := @hinj ⟨k + j, hj2⟩ ⟨i, hi2⟩ (by simpa using hid)
  simp only [Fin.mk.injEq] at this
  omega

/-- A record from position `k` on is found once the first `k` records are
gone. -/
theorem Get_drop_of_le (op : appOperation) (ds : List Deployment) (k i : Nat)
    (hnodup : (ds.map Deployment.Id).Nodup) (h : i < ds.length) (hki : k ≤ i) :
    op.Get (State.ofList (ds.drop k)) (.Id ds[i].Id) = .ok ds[i] := by
  apply Get_ofList_of_mem _ _ _ (((List.drop_sublist _ _).map Deployment.Id).nodup hnodup)
  rw [List.mem_drop_iff_getElem]
  refine ⟨i - k, by omega, ?_⟩
  congr 1
  omega

theorem le_limit (op : appOperation) (n : Nat)
    (h : op.RetentionLimit = 0 ∨ n ≤ op.RetentionLimit) : (n : ℕ∞) ≤ op.limit := by
  unfold appOperation.limit
  split
  · exact le_top
  · rename_i h0
    exact Nat.cast_le.mpr (h.resolve_left h0)

theorem indexedRecords_Put_within (op : appOperation) (s s' : State) (index : Bool)
    (value : Deployment) (hput : op.Put s index value = .ok s') :
    op.RetentionLimit = 0 ∨ s'.indexedRecords ≤ op.RetentionLimit := by
  by_cases h0 : op.RetentionLimit = 0
  · exact Or.inl h0
  · exact Or.inr (indexedRecords_Put_le op s s' index value (Nat.pos_of_ne_zero h0) hput)

theorem indexedRecords_PutAll_within (op : appOperation) (vs : List (Bool × Deployment)) :
    op.RetentionLimit = 0 ∨ (op.PutAll State.empty vs).indexedRecords ≤ op.RetentionLimit := by
  by_cases h0 : op.RetentionLimit = 0
  · exact Or.inl h0
  · exact Or.inr (indexedRecords_PutAll_le op vs State.empty (Nat.pos_of_ne_zero h0)
      (Nat.zero_le _))

/-- C1, as amended: for every state of a transaction and every limit `max`,
`pruneOld` succeeds and returns `n - max` when the number `n` of indexed
records exceeds `max`, and 0 otherwise.  After three successful `Put`s of
distinct ids into the empty store, `pruneOld` with limit 2 returns, with no
error, 1 when the retention limit of the operation is unbounded or at least 3,
and 0 when it is 1 or 2, the `Put`s having pruned on write. -/
theorem pruneOld_deletedCount (op : appOperation) (txn : State) (max : Nat) :
    (∃ txn', op.pruneOld txn max =
      .ok (if max < txn.indexedRecords then txn.indexedRecords - max else 0, txn')) ∧
    (∀ (a b c : Deployment) (fa fb fc : Bool), a.Id ≠ "" → b.Id ≠ "" → c.Id ≠ "" →
      a.Id ≠ b.Id → a.Id ≠ c.Id → b.Id ≠ c.Id →
      ∃ s1 s2 s3 txn', op.Put State.empty fa a = .ok s1 ∧ op.Put s1 fb b = .ok s2 ∧
        op.Put s2 fc c = .ok s3 ∧
        op.pruneOld s3 2 =
          .ok (if op.RetentionLimit = 0 ∨ 3 ≤ op.RetentionLimit then 1 else 0, txn')) := by
  constructor
  · rw [pruneOld_eq]
    refine ⟨_, congrArg Except.ok (Prod.ext ?_ rfl)⟩
    simp only
    split <;> omega
  · intro a b c fa fb fc ha hb hc hab hac hbc
    have h1 : op.Put State.empty fa a = .ok (State.ofList (keep op.RetentionLimit [a])) := by
      have := Put_ofList_keep op [] fa a ha (by simp) (by simp)
      rw [keep_nil] at this
      exact this
    have h2 : op.Put (State.ofList (keep op.RetentionLimit [a])) fb b =
        .ok (State.ofList (keep op.RetentionLimit [a, b])) :=
      Put_ofList_keep op [a] fb b hb (by simpa using Ne.symm hab) (by simp)
    have h3 : op.Put (State.ofList (keep op.RetentionLimit [a, b])) fc c =
        .ok (State.ofList (keep op.RetentionLimit [a, b, c])) :=
      Put_ofList_keep op [a, b] fc c hc (by simpa using ⟨Ne.symm hac, Ne.symm hbc⟩)
        (by simpa using hab)
    have hnd : ((keep op.RetentionLimit [a, b, c]).map Deployment.Id).Nodup :=
      ((keep_sublist _ _).map Deployment.Id).nodup (by simp [hab, hac, hbc])
    have hcnt : (keep op.RetentionLimit [a, b, c]).length - 2 =
        if op.RetentionLimit = 0 ∨ 3 ≤ op.RetentionLimit then 1 else 0 := by
      rw [length_keep]
      simp only [List.length_cons, List.length_nil]
      split <;> split <;> omega
    have h4 := pruneOld_ofList op (keep op.RetentionLimit [a, b, c]) 2 hnd
    rw [hcnt] at h4
    exact ⟨_, _, _, _, h1, h2, h3, h4⟩

theorem pruneOld_deletedCount_witness :
    ∃ s1 s2 s3 txn', (appOperation.mk 0).Put State.empty false (testDeployment "A") = .ok s1 ∧
      (appOperation.mk 0).Put s1 false (testDeployment "B") = .ok s2 ∧
      (appOperation.mk 0).Put s2 false (testDeployment "C") = .ok s3 ∧
      (appOperation.mk 0).pruneOld s3 2 =
        .ok (if (appOperation.mk 0).RetentionLimit = 0 ∨ 3 ≤ (appOperation.mk 0).RetentionLimit
          then 1 else 0, txn') :=
  (pruneOld_deletedCount (appOperation.mk 0) State.empty 2).2
    (testDeployment "A") (testDeployment "B") (testDeployment "C") false false false
    (by decide) (by decide) (by decide) (by decide) (by decide) (by decide)

/-- C1 fails as stated under the retention limit 2, the limit of the scenario
of section 8 of the specification: A is pruned when C is written, and
`pruneOld` with limit 2 then finds two indexed records and returns 0, not
1. -/
theorem pruneOld_after_three_puts_limit_two :
    (appOperation.mk 2).Put State.empty false (testDeployment "A") =
        .ok (State.ofList [testDeployment "A"]) ∧
      (appOperation.mk 2).Put (State.ofList [testDeployment "A"]) false (testDeployment "B") =
        .ok (State.ofList [testDeployment "A", testDeployment "B"]) ∧
      (appOperation.mk 2).Put (State.ofList [testDeployment "A", testDeployment "B"]) false
          (testDeployment "C") =
        .ok (State.ofList [testDeployment "B", testDeployment "C"]) ∧
      (appOperation.mk 2).pruneOld (State.ofList [testDeployment "B", testDeployment "C"]) 2 =
        .ok (0, State.ofList [testDeployment "B", testDeployment "C"]) ∧
      (appOperation.mk 2).pruneOld (State.ofList [testDeployment "B", testDeployment "C"]) 2 ≠
        .ok (1, State.ofList [testDeployment "B", testDeployment "C"]) := by
  decide

/-- C2, as amended: pruning removes the oldest records first.  After `Put`s
of records with distinct non-empty ids into the empty store, in the order of
`vs`, and `pruneOld` with limit `max`, `Get` by id fails with `NotFoundError`
for each of the `n - max` earliest-written records, and succeeds exactly for
the latest-written `kept` records: `max` of them when the retention limit of
the operation is unbounded or at least `max`, and as many as the retention
limit otherwise. -/
theorem pruneOld_oldest_first (op : appOperation) (vs : List (Bool × Deployment)) (max : Nat)
    (hnodup : ((vs.map Prod.snd).map Deployment.Id).Nodup)
    (hvalid : ∀ v ∈ vs, v.2.Id ≠ "") :
    ∃ cnt txn, op.pruneOld (op.PutAll State.empty vs) max = .ok (cnt, txn) ∧
      ∀ i (h : i < vs.length),
        (i < vs.length - max → op.Get txn (.Id vs[i].2.Id) = .error .NotFoundError) ∧
        (i < vs.length - kept op.RetentionLimit max →
          op.Get txn (.Id vs[i].2.Id) = .error .NotFoundError) ∧
        (vs.length - kept op.RetentionLimit max ≤ i →
          op.Get txn (.Id vs[i].2.Id) = .ok vs[i].2) ∧
        (op.RetentionLimit = 0 ∨ max ≤ op.RetentionLimit → vs.length - max ≤ i →
          op.Get txn (.Id vs[i].2.Id) = .ok vs[i].2) := by
  refine ⟨_, _, pruneOld_PutAll op vs max hnodup hvalid, ?_⟩
  intro i h
  have hi : i < (vs.map Prod.snd).length := by simpa using h
  have hget : (vs.map Prod.snd)[i] = vs[i].2 := by simp
  have hlen : (vs.map Prod.snd).length = vs.length := by simp
  have hlt : i < vs.length - kept op.RetentionLimit max →
      op.Get (State.ofList ((vs.map Prod.snd).drop
        ((vs.map Prod.snd).length - kept op.RetentionLimit max))) (.Id vs[i].2.Id) =
        .error .NotFoundError := by
    intro hik
    rw [← hget]
    exact Get_drop_of_lt op _ _ i hnodup hi (by rw [hlen]; exact hik)
  have hle : vs.length - kept op.RetentionLimit max ≤ i →
      op.Get (State.ofList ((vs.map Prod.snd).drop
        ((vs.map Prod.snd).length - kept op.RetentionLimit max))) (.Id vs[i].2.Id) =
        .ok vs[i].2 := by
    intro hki
    rw [← hget]
    exact Get_drop_of_le op _ _ i hnodup hi (by rw [hlen]; exact hki)
  refine ⟨?_, hlt, hle, ?_⟩
  · intro hik
    have := kept_le op.RetentionLimit max
    exact hlt (by omega)
  · intro hL hki
    exact hle (by rw [kept_eq_max _ _ hL]; exact hki)

theorem pruneOld_oldest_first_witness :
    ∃ cnt txn, (appOperation.mk 0).pruneOld ((appOperation.mk 0).PutAll State.empty
        [(false, testDeployment "A"), (false, testDeployment "B"), (false, testDeployment "C")])
        2 = .ok (cnt, txn) ∧
      ∀ i (h : i < [(false, testDeployment "A"), (false, testDeployment "B"),
          (false, testDeployment "C")].length),
        (i < [(false, testDeployment "A"), (false, testDeployment "B"),
            (false, testDeployment "C")].length - 2 →
          (appOperation.mk 0).Get txn (.Id [(false, testDeployment "A"),
            (false, testDeployment "B"), (false, testDeployment "C")][i].2.Id) =
            .error .NotFoundError) ∧
        (i < [(false, testDeployment "A"), (false, testDeployment "B"),
            (false, testDeployment "C")].length - kept (appOperation.mk 0).RetentionLimit 2 →
          (appOperation.mk 0).Get txn (.Id [(false, testDeployment "A"),
            (false, testDeployment "B"), (false, testDeployment "C")][i].2.Id) =
            .error .NotFoundError) ∧
        ([(false, testDeployment "A"), (false, testDeployment "B"),
            (false, testDeployment "C")].length - kept (appOperation.mk 0).RetentionLimit 2 ≤ i →
          (appOperation.mk 0).Get txn (.Id [(false, testDeployment "A"),
            (false, testDeployment "B"), (false, testDeployment "C")][i].2.Id) =
            .ok [(false, testDeployment "A"), (false, testDeployment "B"),
              (false, testDeployment "C")][i].2) ∧
        ((appOperation.mk 0).RetentionLimit = 0 ∨ 2 ≤ (appOperation.mk 0).RetentionLimit →
          [(false, testDeployment "A"), (false, testDeployment "B"),
            (false, testDeployment "C")].length - 2 ≤ i →
          (appOperation.mk 0).Get txn (.Id [(false, testDeployment "A"),
            (false, testDeployment "B"), (false, testDeployment "C")][i].2.Id) =
            .ok [(false, testDeployment "A"), (false, testDeployment "B"),
              (false, testDeployment "C")][i].2) :=
  pruneOld_oldest_first (appOperation.mk 0)
    [(false, testDeployment "A"), (false, testDeployment "B"), (false, testDeployment "C")] 2
    (by decide) (by decide)

/-- C2 fails as stated under a retention limit below `max`.  Under the limit
1, of A, B and C only C is left by the `Put`s, `pruneOld` with limit 2 deletes
nothing, and `Get` of B, one of the two latest-written records, fails.  Under
the limit 2 of the scenario of section 8 of the specification, of A, B, C and
D only C and D are left, `pruneOld` with limit 3 deletes nothing, and `Get`
of B, one of the three latest-written records, fails. -/
theorem pruneOld_latest_lost_small_limit :
    ((appOperation.mk 1).PutAll State.empty [(false, testDeployment "A"),
        (false, testDeployment "B"), (false, testDeployment "C")] =
        State.ofList [testDeployment "C"] ∧
      (appOperation.mk 1).pruneOld (State.ofList [testDeployment "C"]) 2 =
        .ok (0, State.ofList [testDeployment "C"]) ∧
      (appOperation.mk 1).Get (State.ofList [testDeployment "C"]) (.Id "B") =
        .error .NotFoundError ∧
      (appOperation.mk 1).Get (State.ofList [testDeployment "C"]) (.Id "B") ≠
        .ok (testDeployment "B")) ∧
    ((appOperation.mk 2).PutAll State.empty [(true, testDeployment "A"),
        (true, testDeployment "B"), (true, testDeployment "C"), (true, testDeployment "D")] =
        State.ofList [testDeployment "C", testDeployment "D"] ∧
      (appOperation.mk 2).pruneOld (State.ofList [testDeployment "C", testDeployment "D"]) 3 =
        .ok (0, State.ofList [testDeployment "C", testDeployment "D"]) ∧
      (appOperation.mk 2).Get (State.ofList [testDeployment "C", testDeployment "D"])
        (.Id "B") = .error .NotFoundError ∧
      (appOperation.mk 2).Get (State.ofList [testDeployment "C", testDeployment "D"])
        (.Id "B") ≠ .ok (testDeployment "B")) := by
  decide

/-- C3: retention invariant.  After every committed `Put`, whatever the state
before, and after every sequence of `Put`s into the empty store, the number of
indexed records of every group, and of the store, is at most the retention
limit of the operation, the limit 0 being unbounded.  After every `pruneOld`
with limit `max` it is at most `max`, and on a store written by `Put`s the
number of indexed records is exactly `max` when it exceeded `max` before. -/
theorem retention_invariant (op : appOperation) (vs : List (Bool × Deployment)) (G : String)
    (max : Nat) :
    (∀ s index value s', op.Put s index value = .ok s' →
      (s'.count G : ℕ∞) ≤ op.limit ∧ (s'.indexedRecords : ℕ∞) ≤ op.limit ∧
      (op.RetentionLimit ≠ 0 → s'.count G ≤ op.RetentionLimit)) ∧
    (((op.PutAll State.empty vs).count G : ℕ∞) ≤ op.limit ∧
      ((op.PutAll State.empty vs).indexedRecords : ℕ∞) ≤ op.limit ∧
      (op.RetentionLimit ≠ 0 → (op.PutAll State.empty vs).count G ≤ op.RetentionLimit)) ∧
    (∀ txn, ∃ cnt txn', op.pruneOld txn max = .ok (cnt, txn') ∧
      txn'.count G ≤ max ∧ txn'.indexedRecords ≤ max) ∧
    (∃ cnt txn', op.pruneOld (op.PutAll State.empty vs) max = .ok (cnt, txn') ∧
      (max < (op.PutAll State.empty vs).indexedRecords → txn'.indexedRecords = max)) := by
  refine ⟨?_, ?_, ?_, ?_⟩
  · intro s index value s' hput
    have h := indexedRecords_Put_within op s s' index value hput
    have hc := count_le_indexedRecords s' G
    refine ⟨le_limit op _ (h.imp_right (fun h => hc.trans h)), le_limit op _ h, ?_⟩
    intro h0
    exact hc.trans (h.resolve_left h0)
  · have h := indexedRecords_PutAll_within op vs
    have hc := count_le_indexedRecords (op.PutAll State.empty vs) G
    refine ⟨le_limit op _ (h.imp_right (fun h => hc.trans h)), le_limit op _ h, ?_⟩
    intro h0
    exact hc.trans (h.resolve_left h0)
  · intro txn
    exact ⟨_, _, pruneOld_eq op txn max,
      (count_le_indexedRecords _ G).trans (indexedRecords_pruned_le _ _),
      indexedRecords_pruned_le _ _⟩
  · refine ⟨_, _, pruneOld_eq op _ max, ?_⟩
    intro hlt
    have hnd := nodup_index_PutAll op vs State.empty (by simp [State.empty])
    unfold State.indexedRecords at hlt ⊢
    rw [index_pruned_of_nodup _ _ hnd, List.length_drop]
    unfold State.indexedRecords
    omega

theorem retention_invariant_witness :
    ((State.ofList [testDeployment "B", testDeployment "C"]).count "a_test" : ℕ∞) ≤
        (appOperation.mk 2).limit ∧
      ((State.ofList [testDeployment "B", testDeployment "C"]).indexedRecords : ℕ∞) ≤
        (appOperation.mk 2).limit ∧
      ((appOperation.mk 2).RetentionLimit ≠ 0 →
        (State.ofList [testDeployment "B", testDeployment "C"]).count "a_test" ≤
          (appOperation.mk 2).RetentionLimit) :=
  (retention_invariant (appOperation.mk 2) [] "a_test" 1).1
    (State.ofList [testDeployment "A", testDeployment "B"]) true (testDeployment "C")
    (State.ofList [testDeployment "B", testDeployment "C"]) (by decide)

/-- C4 fails as stated: in the sequence of `TestDeploymentPrune` each `Put`
with the flag `false` raises the number of indexed records, and the following
`pruneOld` with limit 2 deletes A, written with `false`, which `Get` then does
not find. -/
theorem put_false_counted_and_pruned :
    (appOperation.mk 0).Put State.empty false (testDeployment "A") =
        .ok (State.ofList [testDeployment "A"]) ∧
      (appOperation.mk 0).Put (State.ofList [testDeployment "A"]) false (testDeployment "B") =
        .ok (State.ofList [testDeployment "A", testDeployment "B"]) ∧
      (appOperation.mk 0).Put (State.ofList [testDeployment "A", testDeployment "B"]) false
          (testDeployment "C") =
        .ok (State.ofList [testDeployment "A", testDeployment "B", testDeployment "C"]) ∧
      State.empty.count "a_test" = 0 ∧
      (State.ofList [testDeployment "A"]).count "a_test" = 1 ∧
      (State.ofList [testDeployment "A", testDeployment "B", testDeployment "C"]).indexedRecords
        = 3 ∧
      (appOperation.mk 0).pruneOld
          (State.ofList [testDeployment "A", testDeployment "B", testDeployment "C"]) 2 =
        .ok (1, State.ofList [testDeployment "B", testDeployment "C"]) ∧
      (State.ofList [testDeployment "B", testDeployment "C"]).indexedRecords = 2 ∧
      (appOperation.mk 0).Get (State.ofList [testDeployment "B", testDeployment "C"]) (.Id "A") =
        .error .NotFoundError := by
  decide

/-- C4, as amended: writes with the flag `false` count and are pruned.  A
`Put` with `false` of a valid record whose id is not indexed yet, the
retention limit not being reached, raises the number of indexed records of
the store, and that of the record's group, by one.  And `pruneOld` deletes
records written with `false`, oldest first: after `Put`s with `false` of
records with distinct non-empty ids into the empty store, in the order of
`ds`, and `pruneOld` with limit `max`, `Get` by id fails with `NotFoundError`
for each of the `n - max` earliest-written records and returns each of the
latest-written `kept` records (`max` of them when the retention limit is
unbounded or at least `max`). -/
theorem put_false_counts (op : appOperation) (s : State) (value : Deployment)
    (ds : List Deployment) (max : Nat) :
    (value.Id ≠ "" → value.Id ∉ s.index.map IndexEntry.Id →
      (op.RetentionLimit = 0 ∨ s.indexedRecords < op.RetentionLimit) →
      ∃ s', op.Put s false value = .ok s' ∧
        s'.indexedRecords = s.indexedRecords + 1 ∧
        s'.count value.Application = s.count value.Application + 1) ∧
    ((ds.map Deployment.Id).Nodup → (∀ d ∈ ds, d.Id ≠ "") →
      ∃ cnt txn, op.pruneOld (op.PutAll State.empty (ds.map (fun d => (false, d)))) max =
          .ok (cnt, txn) ∧
        (∀ d ∈ ds.take (ds.length - max), op.Get txn (.Id d.Id) = .error .NotFoundError) ∧
        (∀ d ∈ ds.drop (ds.length - kept op.RetentionLimit max),
          op.Get txn (.Id d.Id) = .ok d) ∧
        (op.RetentionLimit = 0 ∨ max ≤ op.RetentionLimit →
          ∀ d ∈ ds.drop (ds.length - max), op.Get txn (.Id d.Id) = .ok d)) := by
  constructor
  · intro hvalid hnew hL
    have hidx : (s.upsert value).index = s.index ++ [value.entry] := by
      simp only [State.upsert]
      rw [filter_ne_of_not_mem IndexEntry.Id s.index value.Id hnew]
    have hlen : (s.upsert value).indexedRecords = s.indexedRecords + 1 := by
      simp [State.indexedRecords, hidx]
    have hs' : (if op.RetentionLimit = 0 then s.upsert value
        else (s.upsert value).pruned op.RetentionLimit) = s.upsert value := by
      split
      · rfl
      · rename_i h0
        exact pruned_of_le _ _ (by rw [hlen]; have := hL.resolve_left h0; omega)
    refine ⟨s.upsert value, ?_, hlen, ?_⟩
    · rw [Put_eq op s false value hvalid, hs']
    · simp [State.count, hidx, List.filter_append, Deployment.entry]
  · intro hnodup hvalid
    have hsnd : (ds.map (fun d => ((false, d) : Bool × Deployment))).map Prod.snd = ds := by
      simp [List.map_map, Function.comp_def]
    have hprune := pruneOld_PutAll op (ds.map (fun d => (false, d))) max
      (by rw [hsnd]; exact hnodup)
      (by
        intro v hv
        rw [List.mem_map] at hv
        obtain ⟨d, hd, rfl⟩ := hv
        exact hvalid d hd)
    rw [hsnd] at hprune
    have hdrop : ∀ d ∈ ds.drop (ds.length - kept op.RetentionLimit max),
        op.Get (State.ofList (ds.drop (ds.length - kept op.RetentionLimit max))) (.Id d.Id) =
          .ok d := by
      intro d hd
      exact Get_ofList_of_mem op _ d
        (((List.drop_sublist _ _).map Deployment.Id).nodup hnodup) hd
    refine ⟨_, _, hprune, ?_, hdrop, ?_⟩
    · intro d hd
      rw [List.mem_take_iff_getElem] at hd
      obtain ⟨i, hi, rfl⟩ := hd
      have hk := kept_le op.RetentionLimit max
      exact Get_drop_of_lt op ds _ i hnodup (by omega) (by omega)
    · intro hL d hd
      rw [← kept_eq_max _ _ hL] at hd
      exact hdrop d hd

theorem put_false_counts_witness :
    (∃ s', (appOperation.mk 3).Put (State.ofList [testDeployment "A"]) false
          (testDeployment "B") = .ok s' ∧
        s'.indexedRecords = (State.ofList [testDeployment "A"]).indexedRecords + 1 ∧
        s'.count (testDeployment "B").Application =
          (State.ofList [testDeployment "A"]).count (testDeployment "B").Application + 1) ∧
      ∃ cnt txn, (appOperation.mk 0).pruneOld ((appOperation.mk 0).PutAll State.empty
          ([testDeployment "A", testDeployment "B", testDeployment "C"].map
            (fun d => (false, d)))) 2 = .ok (cnt, txn) ∧
        (∀ d ∈ [testDeployment "A", testDeployment "B", testDeployment "C"].take
            ([testDeployment "A", testDeployment "B", testDeployment "C"].length - 2),
          (appOperation.mk 0).Get txn (.Id d.Id) = .error .NotFoundError) ∧
        (∀ d ∈ [testDeployment "A", testDeployment "B", testDeployment "C"].drop
            ([testDeployment "A", testDeployment "B", testDeployment "C"].length -
              kept (appOperation.mk 0).RetentionLimit 2),
          (appOperation.mk 0).Get txn (.Id d.Id) = .ok d) ∧
        ((appOperation.mk 0).RetentionLimit = 0 ∨ 2 ≤ (appOperation.mk 0).RetentionLimit →
          ∀ d ∈ [testDeployment "A", testDeployment "B", testDeployment "C"].drop
            ([testDeployment "A", testDeployment "B", testDeployment "C"].length - 2),
          (appOperation.mk 0).Get txn (.Id d.Id) = .ok d) :=
  ⟨(put_false_counts (appOperation.mk 3) (State.ofList [testDeployment "A"])
      (testDeployment "B") [] 0).1 (by decide) (by decide) (Or.inr (by decide)),
   (put_false_counts (appOperation.mk 0) State.empty (testDeployment "A")
      [testDeployment "A", testDeployment "B", testDeployment "C"] 2).2
      (by decide) (by decide)⟩

/-- C5: round trip.  For every record with a non-empty id and every state of
the store, `Put` with `true` succeeds and `Get` by the record's id then
returns the record, equal in every field. -/
theorem Put_Get_roundtrip (op : appOperation) (s : State) (R : Deployment) (hvalid : R.Id ≠ "") :
    ∃ s', op.Put s true R = .ok s' ∧ op.Get s' (.Id R.Id) = .ok R := by
  refine ⟨_, Put_eq op s true R hvalid, ?_⟩
  have hfind : (if op.RetentionLimit = 0 then s.upsert R
      else (s.upsert R).pruned op.RetentionLimit).table.find? (fun d => d.Id = R.Id) =
      some R := by
    split
    · simp [State.upsert]
    · rename_i h0
      simp only [State.pruned, State.upsert]
      apply find?_filter_append_self
      simp only [decide_eq_true_eq, State.indexedRecords, List.length_append,
        List.length_singleton]
      rw [List.take_append_of_le_length (by omega)]
      intro hmem
      rw [List.mem_map] at hmem
      obtain ⟨e, he, hid⟩ := hmem
      have := (List.mem_filter.mp (List.mem_of_mem_take he)).2
      simp only [decide_eq_true_eq] at this
      exact this hid
  simp only [appOperation.Get, appOperation.resolve, hfind]

theorem Put_Get_roundtrip_witness :
    ∃ s', (appOperation.mk 1).Put (State.ofList [testDeployment "A"]) true
        { Id := "A", Application := "other", Status := 7 } = .ok s' ∧
      (appOperation.mk 1).Get s' (.Id "A") =
        .ok { Id := "A", Application := "other", Status := 7 } :=
  Put_Get_roundtrip (appOperation.mk 1) (State.ofList [testDeployment "A"])
    { Id := "A", Application := "other", Status := 7 } (by decide)

end state
